import Mathlib

/-!
# Verification of the datald excel_to_png redaction pipeline

A shallow embedding of `src/server/pipeline/excel_to_png.py` (and, for the
quarantine deposit, of `process_excel_file_workflow` in the attached-asset
variant).  Strings are `List Char` / `String`; Python's `re` patterns are
embedded as small atom sequences interpreted by a backtracking matcher with
Python's leftmost, greedy, non-overlapping semantics; `re.sub` / `re.findall`
are fuel-indexed scanners over the original text.  Character classes follow
the ASCII reading of the patterns.
-/

namespace DataLd

/-! ## Character classes of the patterns -/

/-- `\w` of the patterns: `[a-zA-Z0-9_]`. -/
def isWordChar (c : Char) : Bool := c.isAlphanum || c = '_'

/-- The email local-part class `[a-zA-Z0-9._%+-]`. -/
def isLocalChar (c : Char) : Bool :=
  c.isAlphanum || c = '.' || c = '_' || c = '%' || c = '+' || c = '-'

/-- The email domain class `[a-zA-Z0-9.-]`. -/
def isDomainChar (c : Char) : Bool := c.isAlphanum || c = '.' || c = '-'

/-- `\S`: any non-whitespace character. -/
def isNonSpace (c : Char) : Bool := !c.isWhitespace

/-! ## A small backtracking regex engine

An atom list stands for a concatenation; `matchSeq` tries to match it at the
start of `s`, where `prev` is the already-scanned text, reversed (needed by
the zero-width look-around atoms).  Repetition is greedy: longer candidate
lengths are tried first, exactly as Python's `re` does. -/

/-- One regex atom. -/
inductive RAtom where
  /-- a literal character -/
  | lit (c : Char)
  /-- a literal character, case-insensitively (`re.IGNORECASE`) -/
  | litCI (c : Char)
  /-- one character of a class -/
  | cls (p : Char → Bool)
  /-- greedy `{m,}` repetition of a class (`+` is `repGe 1`, `*` is `repGe 0`) -/
  | repGe (m : Nat) (p : Char → Bool)
  /-- the word-boundary assertion `\b` -/
  | wb
  /-- the negative look-behind `(?<!c)` -/
  | nlb (c : Char)
  /-- an alternation of literal strings, tried left to right -/
  | altLit (ls : List (List Char))

/-- `[n, n-1, ..., m]`, the greedy candidate lengths for `repGe m` with a
maximal run of `n`. -/
def countdownTo : Nat → Nat → List Nat
  | 0, m => if m = 0 then [0] else []
  | n+1, m => if n + 1 < m then [] else (n + 1) :: countdownTo n m

/-- `\b` holds between `prev.head?` and `s.head?`. -/
def wordBoundary (prev s : List Char) : Bool :=
  match prev.head?, s.head? with
  | none, none => false
  | none, some c => isWordChar c
  | some p, none => isWordChar p
  | some p, some c => isWordChar p != isWordChar c

/-- Try to match the atom sequence at the start of `s` (with `prev` the
reversed text to the left); on success return the unconsumed suffix.
Backtracking is by trying candidate consumption lengths in greedy order. -/
def matchSeq : List RAtom → List Char → List Char → Option (List Char)
  | [], _, s => some s
  | .lit c :: ps, prev, s =>
    match s with
    | [] => none
    | x :: xs => if x = c then matchSeq ps (x :: prev) xs else none
  | .litCI c :: ps, prev, s =>
    match s with
    | [] => none
    | x :: xs => if x.toLower = c.toLower then matchSeq ps (x :: prev) xs else none
  | .cls p :: ps, prev, s =>
    match s with
    | [] => none
    | x :: xs => if p x then matchSeq ps (x :: prev) xs else none
  | .repGe m p :: ps, prev, s =>
    (countdownTo (s.takeWhile p).length m).findSome?
      (fun k => matchSeq ps ((s.take k).reverse ++ prev) (s.drop k))
  | .wb :: ps, prev, s =>
    if wordBoundary prev s then matchSeq ps prev s else none
  | .nlb c :: ps, prev, s =>
    match prev with
    | [] => matchSeq ps prev s
    | p :: _ => if p = c then none else matchSeq ps prev s
  | .altLit ls :: ps, prev, s =>
    ls.findSome?
      (fun l => if l.isPrefixOf s then matchSeq ps (l.reverse ++ prev) (s.drop l.length)
                else none)

/-- `re.sub(pattern, repl, ·)`: scan left to right over the original text,
replacing each non-overlapping match; `fuel` bounds the number of scan steps
(callers pass the text's length, which always suffices). -/
def scanSub (pat : List RAtom) (repl : List Char → List Char) :
    Nat → List Char → List Char → List Char
  | 0, _, s => s
  | _+1, _, [] => []
  | fuel+1, prev, c :: cs =>
    match matchSeq pat prev (c :: cs) with
    | none => c :: scanSub pat repl fuel (c :: prev) cs
    | some rest =>
      let m := (c :: cs).take ((c :: cs).length - rest.length)
      if m.isEmpty then c :: scanSub pat repl fuel (c :: prev) cs
      else repl m ++ scanSub pat repl fuel (m.reverse ++ prev) rest

/-- `re.findall(pattern, ·)` (for group-free patterns): the list of
non-overlapping matches, scanning left to right. -/
def scanFind (pat : List RAtom) : Nat → List Char → List Char → List (List Char)
  | 0, _, _ => []
  | _+1, _, [] => []
  | fuel+1, prev, c :: cs =>
    match matchSeq pat prev (c :: cs) with
    | none => scanFind pat fuel (c :: prev) cs
    | some rest =>
      let m := (c :: cs).take ((c :: cs).length - rest.length)
      if m.isEmpty then scanFind pat fuel (c :: prev) cs
      else m :: scanFind pat fuel (m.reverse ++ prev) rest

/-- Whether the pattern matches anywhere in the text. -/
def existsMatch (pat : List RAtom) : Nat → List Char → List Char → Bool
  | 0, _, _ => false
  | _+1, _, [] => false
  | fuel+1, prev, c :: cs =>
    match matchSeq pat prev (c :: cs) with
    | none => existsMatch pat fuel (c :: prev) cs
    | some _ => true

/-- `re.sub` over a whole text. -/
def subAll (pat : List RAtom) (repl : List Char → List Char) (s : List Char) :
    List Char := scanSub pat repl s.length [] s

/-- `re.findall` over a whole text. -/
def findAll (pat : List RAtom) (s : List Char) : List (List Char) :=
  scanFind pat s.length [] s

/-- Whether the pattern has a match somewhere in the text. -/
def hasMatch (pat : List RAtom) (s : List Char) : Bool :=
  existsMatch pat s.length [] s

/-! ## The configuration constants of `excel_to_png.py` -/

def ROWS_PER_PAGE : Nat := 10
def DATA_COLS_TO_KEEP : Nat := 15
def INDEX_COL_WIDTH : Nat := 50
def TOP_3_COL_WIDTH : Nat := 200
def OTHER_COL_WIDTH : Nat := 105
def CELL_PADDING_X : Nat := 10
def LINE_HEIGHT_ESTIMATE : Nat := 18
def ROW_HEIGHT : Nat := 108
def MAX_LEAK_TOLERANCE : Nat := 5

/-- `KEYWORDS_TO_MASK`. -/
def KEYWORDS_TO_MASK : List (List Char) :=
  ["trangvang".data, "scribd".data, "hsct".data, "hosocongty".data,
   "thuế".data, "thue".data, "masothue".data, "data5s".data,
   "google.com/maps/".data]

/-! ## The string helpers (`str.strip`, `str.lower`) -/

/-- `str.strip()`. -/
def trimL (l : List Char) : List Char :=
  ((l.dropWhile Char.isWhitespace).reverse.dropWhile Char.isWhitespace).reverse

/-- `str.lower()`. -/
def lowerL (l : List Char) : List Char := l.map Char.toLower

/-! ## The four patterns of `mask_cell_value` and the two of the auditor -/

/-- `\b(?:https?://|www\.)\S+\b`; `https?://` is the two-literal alternation
tried greedily (`https://` before `http://`). -/
def urlAtoms : List RAtom :=
  [.wb, .altLit ["https://".data, "http://".data, "www.".data],
   .repGe 1 isNonSpace, .wb]

/-- `re.escape(keyword)` with `re.IGNORECASE`: a case-insensitive literal. -/
def kwAtoms (kw : List Char) : List RAtom := kw.map RAtom.litCI

/-- `\b[a-zA-Z0-9._%+-]+@[a-zA-Z0-9.-]+\.[a-zA-Z]{2,}\b` (the masker's email
pattern). -/
def emailMaskAtoms : List RAtom :=
  [.wb, .repGe 1 isLocalChar, .lit '@', .repGe 1 isDomainChar, .lit '.',
   .repGe 2 Char.isAlpha, .wb]

/-- `\d+`. -/
def digitAtoms : List RAtom := [.repGe 1 Char.isDigit]

/-- `\b[a-zA-Z0-9][a-zA-Z0-9._%+-]*@[a-zA-Z0-9.-]+\.[a-zA-Z]{2,}\b` (the
auditor's email pattern). -/
def emailAuditAtoms : List RAtom :=
  [.wb, .cls Char.isAlphanum, .repGe 0 isLocalChar, .lit '@',
   .repGe 1 isDomainChar, .lit '.', .repGe 2 Char.isAlpha, .wb]

/-- `(?<!\*)\b\d{7,}\b` (the auditor's number pattern). -/
def numberAuditAtoms : List RAtom := [.nlb '*', .wb, .repGe 7 Char.isDigit, .wb]

/-! ## The replacement callbacks -/

/-- `mask_all_chars`: replace the whole match with `*`s. -/
def mask_all_chars (m : List Char) : List Char := List.replicate m.length '*'

/-- `math.ceil(n / 2)`. -/
def ceilHalf (n : Nat) : Nat := (n + 1) / 2

/-- `mask_number_group`: star the first `ceil(len/2)` characters. -/
def mask_number_group (m : List Char) : List Char :=
  List.replicate (ceilHalf m.length) '*' ++ m.drop (ceilHalf m.length)

/-- `mask_email_group`: star the part before the first `@`. -/
def mask_email_group (m : List Char) : List Char :=
  if '@' ∈ m then
    List.replicate (m.takeWhile (· ≠ '@')).length '*' ++ m.dropWhile (· ≠ '@')
  else m

/-! ## `mask_cell_value` -/

/-- The keyword pass: one case-insensitive literal substitution per keyword,
in list order. -/
def maskKeywords (s : List Char) : List Char :=
  KEYWORDS_TO_MASK.foldl (fun acc kw => subAll (kwAtoms kw) mask_all_chars acc) s

/-- `mask_cell_value` on the character list (after the `''`/`'nan'` guard). -/
def maskPasses (s : List Char) : List Char :=
  subAll digitAtoms mask_number_group
    (subAll emailMaskAtoms mask_email_group
      (maskKeywords (subAll urlAtoms mask_all_chars s)))

/-- `mask_cell_value`. -/
def mask_cell_value (value : String) : String :=
  let text := value.data
  if text.isEmpty || lowerL (trimL text) = "nan".data then ""
  else ⟨maskPasses text⟩

/-! ## `check_html_leakage_count`

The artifact's text is an `Option String`: `none` stands for the read
failing (the `except` branch of the Python). -/

/-- Contiguous-substring test (Python's `num in file_name_check`). -/
def isSubstring (a b : List Char) : Bool := b.tails.any (fun t => a.isPrefixOf t)

/-- `check_html_leakage_count(html_path, file_name_check)`. -/
def check_html_leakage_count (content : Option String) (fileNameCheck : String) :
    Nat × List String :=
  match content with
  | none => (1, ["Error reading file"])
  | some c =>
    let leakedEmails := findAll emailAuditAtoms c.data
    let keptNumbers := (findAll numberAuditAtoms c.data).filter
      (fun n => !isSubstring n fileNameCheck.data)
    (leakedEmails.length + keptNumbers.length,
     (leakedEmails ++ keptNumbers).map (⟨·⟩))

/-! ## Engine lemmas: candidate lists -/

theorem countdownTo_zero : countdownTo 0 0 = [0] := rfl

theorem countdownTo_eq_nil {n m : Nat} (h : n < m) : countdownTo n m = [] := by
  cases n with
  | zero => simp only [countdownTo, if_neg (by omega : ¬ m = 0)]
  | succ k => simp only [countdownTo, if_pos h]

theorem countdownTo_succ {k m : Nat} (h : m ≤ k + 1) :
    countdownTo (k+1) m = (k+1) :: countdownTo k m := by
  simp only [countdownTo, if_neg (by omega : ¬ k + 1 < m)]

theorem countdownTo_head {n m : Nat} (h : m ≤ n) :
    ∃ t, countdownTo n m = n :: t := by
  cases n with
  | zero =>
    refine ⟨[], ?_⟩
    have : m = 0 := by omega
    simp [this, countdownTo_zero]
  | succ k => exact ⟨_, countdownTo_succ h⟩

theorem mem_countdownTo {j n m : Nat} : j ∈ countdownTo n m ↔ m ≤ j ∧ j ≤ n := by
  induction n with
  | zero =>
    by_cases hm : m = 0
    · subst hm; simp only [countdownTo_zero, List.mem_singleton]; omega
    · simp only [countdownTo, if_neg hm, List.not_mem_nil, false_iff]; omega
  | succ k ih =>
    by_cases hlt : k + 1 < m
    · simp only [countdownTo, if_pos hlt, List.not_mem_nil, false_iff]; omega
    · rw [countdownTo_succ (by omega)]
      simp only [List.mem_cons, ih]
      omega

theorem findSome?_countdownTo_top {α : Type} {f : Nat → Option α} {n m : Nat} {v : α}
    (hm : m ≤ n) (hf : f n = some v) :
    (countdownTo n m).findSome? f = some v := by
  obtain ⟨t, ht⟩ := countdownTo_head hm
  rw [ht, List.findSome?_cons, hf]

theorem findSome?_countdownTo_mid {α : Type} {f : Nat → Option α} {m k : Nat} {v : α} :
    ∀ {n}, m ≤ k → k ≤ n → f k = some v → (∀ j, k < j → j ≤ n → f j = none) →
      (countdownTo n m).findSome? f = some v := by
  intro n
  induction n with
  | zero =>
    intro hm hk hf _
    have : k = 0 := by omega
    subst this
    exact findSome?_countdownTo_top hm hf
  | succ i ih =>
    intro hm hk hf hnone
    rcases Nat.lt_or_ge k (i+1) with h | h
    · rw [countdownTo_succ (by omega), List.findSome?_cons,
        hnone (i+1) h (Nat.le_refl _)]
      exact ih hm (by omega) hf (fun j hj hj' => hnone j hj (by omega))
    · have : k = i + 1 := by omega
      subst this
      exact findSome?_countdownTo_top hm hf

theorem findSome?_countdownTo_none {α : Type} {f : Nat → Option α} {n m : Nat}
    (h : ∀ j, m ≤ j → j ≤ n → f j = none) :
    (countdownTo n m).findSome? f = none := by
  rw [List.findSome?_eq_none_iff]
  intro j hj
  obtain ⟨h1, h2⟩ := mem_countdownTo.mp hj
  exact h j h1 h2

/-! ## Engine lemmas: `takeWhile`/`take` bookkeeping -/

theorem take_length_takeWhile (p : Char → Bool) (l : List Char) :
    l.take (l.takeWhile p).length = l.takeWhile p := by
  have h := List.take_left (l.takeWhile p) (l.dropWhile p)
  rwa [List.takeWhile_append_dropWhile] at h

theorem drop_length_takeWhile (p : Char → Bool) (l : List Char) :
    l.drop (l.takeWhile p).length = l.dropWhile p := by
  have h := List.drop_left (l.takeWhile p) (l.dropWhile p)
  rwa [List.takeWhile_append_dropWhile] at h

theorem takeWhile_append_of_all {p : Char → Bool} {a : List Char} (b : List Char)
    (ha : ∀ c ∈ a, p c = true) :
    (a ++ b).takeWhile p = a ++ b.takeWhile p := by
  induction a with
  | nil => rfl
  | cons x xs ih =>
    simp only [List.cons_append, List.takeWhile_cons,
      ha x (List.mem_cons_self x xs), if_true,
      ih (fun c hc => ha c (List.mem_cons_of_mem x hc))]

theorem takeWhile_eq_self_of_all {p : Char → Bool} {a : List Char}
    (ha : ∀ c ∈ a, p c = true) : a.takeWhile p = a := by
  have := takeWhile_append_of_all (p := p) [] ha
  simpa using this

/-! ## Engine lemmas: every match consumes a prefix -/

theorem matchSeq_suffix :
    ∀ (ps : List RAtom) (prev s r : List Char), matchSeq ps prev s = some r →
      ∃ m, s = m ++ r := by
  intro ps
  induction ps with
  | nil =>
    intro prev s r h
    simp only [matchSeq, Option.some.injEq] at h
    exact ⟨[], by simp [h]⟩
  | cons a ps ih =>
    intro prev s r h
    cases a with
    | lit c =>
      cases s with
      | nil => simp [matchSeq] at h
      | cons x xs =>
        simp only [matchSeq] at h
        split at h
        · obtain ⟨m, hm⟩ := ih _ _ _ h
          exact ⟨x :: m, by simp [hm]⟩
        · exact absurd h (by simp)
    | litCI c =>
      cases s with
      | nil => simp [matchSeq] at h
      | cons x xs =>
        simp only [matchSeq] at h
        split at h
        · obtain ⟨m, hm⟩ := ih _ _ _ h
          exact ⟨x :: m, by simp [hm]⟩
        · exact absurd h (by simp)
    | cls p =>
      cases s with
      | nil => simp [matchSeq] at h
      | cons x xs =>
        simp only [matchSeq] at h
        split at h
        · obtain ⟨m, hm⟩ := ih _ _ _ h
          exact ⟨x :: m, by simp [hm]⟩
        · exact absurd h (by simp)
    | repGe m p =>
      simp only [matchSeq] at h
      obtain ⟨k, _, hk⟩ := List.exists_of_findSome?_eq_some h
      obtain ⟨m', hm'⟩ := ih _ _ _ hk
      exact ⟨s.take k ++ m', by rw [List.append_assoc, ← hm', List.take_append_drop]⟩
    | wb =>
      simp only [matchSeq] at h
      split at h
      · exact ih _ _ _ h
      · exact absurd h (by simp)
    | nlb c =>
      cases prev with
      | nil => simp only [matchSeq] at h; exact ih _ _ _ h
      | cons p ps' =>
        simp only [matchSeq] at h
        split at h
        · exact absurd h (by simp)
        · exact ih _ _ _ h
    | altLit ls =>
      simp only [matchSeq] at h
      obtain ⟨l, _, hl⟩ := List.exists_of_findSome?_eq_some h
      split at hl
      · obtain ⟨m', hm'⟩ := ih _ _ _ hl
        exact ⟨s.take l.length ++ m', by rw [List.append_assoc, ← hm', List.take_append_drop]⟩
      · exact absurd hl (by simp)

/-! ## Engine lemmas: identity when nothing matches -/

theorem scanSub_id {pat : List RAtom} {repl : List Char → List Char} {s₀ : List Char}
    (h : ∀ a b, s₀ = a ++ b → b ≠ [] → matchSeq pat a.reverse b = none) :
    ∀ fuel a b, s₀ = a ++ b → scanSub pat repl fuel a.reverse b = b := by
  intro fuel
  induction fuel with
  | zero => intro a b _; rfl
  | succ f ih =>
    intro a b hab
    cases b with
    | nil => rfl
    | cons c cs =>
      simp only [scanSub, h a (c :: cs) hab (by simp)]
      have := ih (a ++ [c]) cs (by simp [hab])
      simpa [List.reverse_append] using this

theorem subAll_id {pat : List RAtom} {repl : List Char → List Char} {s : List Char}
    (h : ∀ a b, s = a ++ b → b ≠ [] → matchSeq pat a.reverse b = none) :
    subAll pat repl s = s :=
  scanSub_id h s.length [] s rfl

theorem existsMatch_false_imp {pat : List RAtom} :
    ∀ (fuel : Nat) (prev b : List Char), b.length ≤ fuel →
      existsMatch pat fuel prev b = false →
      ∀ c d, b = c ++ d → d ≠ [] → matchSeq pat (c.reverse ++ prev) d = none := by
  intro fuel
  induction fuel with
  | zero =>
    intro prev b hb _ c d hcd hd
    have : b = [] := List.length_eq_zero.mp (by omega)
    subst this
    exact absurd (List.append_eq_nil.mp hcd.symm).2 hd
  | succ f ih =>
    intro prev b hb hfalse c d hcd hd
    cases b with
    | nil => exact absurd (List.append_eq_nil.mp hcd.symm).2 hd
    | cons x xs =>
      simp only [existsMatch] at hfalse
      rcases hmm : matchSeq pat prev (x :: xs) with _ | r
      · rw [hmm] at hfalse
        cases c with
        | nil =>
          simp only [List.nil_append] at hcd
          simpa [← hcd] using hmm
        | cons y ys =>
          simp only [List.cons_append, List.cons.injEq] at hcd
          obtain ⟨rfl, hys⟩ := hcd
          have := ih (x :: prev) xs (by simpa using hb) hfalse ys d hys hd
          simpa [List.reverse_cons, List.append_assoc] using this
      · rw [hmm] at hfalse; simp at hfalse

theorem hasMatch_false_imp {pat : List RAtom} {s : List Char}
    (h : hasMatch pat s = false) :
    ∀ a b, s = a ++ b → b ≠ [] → matchSeq pat a.reverse b = none := by
  intro a b hab hb
  have := existsMatch_false_imp s.length [] s (Nat.le_refl _) h a b hab hb
  simpa using this

/-! ## The digit pass, characterized

`maskDigits` rewrites each maximal digit run by `mask_number_group` and is
proved equal to the engine's `re.sub(r"\d+", mask_number_group, ·)`. -/

/-- Tail-recursive run splitter (`runRev` is the current digit run, reversed). -/
def maskDigitsAux : List Char → List Char → List Char
  | runRev, [] => mask_number_group runRev.reverse
  | runRev, c :: cs =>
    if c.isDigit then maskDigitsAux (c :: runRev) cs
    else mask_number_group runRev.reverse ++ c :: maskDigitsAux [] cs

/-- Mask every maximal digit run of `s` with `mask_number_group`. -/
def maskDigits (s : List Char) : List Char := maskDigitsAux [] s

theorem mask_number_group_nil : mask_number_group [] = [] := rfl

theorem maskDigitsAux_eq (s : List Char) : ∀ runRev,
    maskDigitsAux runRev s =
      mask_number_group (runRev.reverse ++ s.takeWhile Char.isDigit)
        ++ maskDigitsAux [] (s.dropWhile Char.isDigit) := by
  induction s with
  | nil =>
    intro runRev
    simp [maskDigitsAux, mask_number_group_nil]
  | cons c cs ih =>
    intro runRev
    by_cases hc : c.isDigit
    · simp only [maskDigitsAux, if_pos hc, List.takeWhile_cons, List.dropWhile_cons,
        hc, if_true]
      rw [ih (c :: runRev)]
      simp [List.append_assoc]
    · have hc' : c.isDigit = false := by simpa using hc
      simp only [maskDigitsAux, if_neg hc, List.takeWhile_cons, List.dropWhile_cons, hc',
        if_false]
      simp [maskDigitsAux, hc', mask_number_group_nil]

theorem maskDigits_nil : maskDigits [] = [] := rfl

theorem maskDigits_cons_nondigit {c : Char} (hc : c.isDigit = false) (cs : List Char) :
    maskDigits (c :: cs) = c :: maskDigits cs := by
  simp [maskDigits, maskDigitsAux, hc, mask_number_group_nil]

theorem maskDigits_run (s : List Char) :
    maskDigits s = mask_number_group (s.takeWhile Char.isDigit)
      ++ maskDigits (s.dropWhile Char.isDigit) := by
  have := maskDigitsAux_eq s []
  simpa [maskDigits] using this

theorem maskDigits_of_no_digit {s : List Char} (h : ∀ c ∈ s, c.isDigit = false) :
    maskDigits s = s := by
  induction s with
  | nil => rfl
  | cons c cs ih =>
    rw [maskDigits_cons_nondigit (h c (List.mem_cons_self c cs)),
      ih (fun d hd => h d (List.mem_cons_of_mem c hd))]

theorem dropWhile_head_false {p : Char → Bool} {l : List Char} {c : Char} {t : List Char}
    (h : l.dropWhile p = c :: t) : p c = false := by
  have := List.head?_dropWhile_not p l
  rw [h] at this
  simpa using this

theorem dropWhile_append_of_all {p : Char → Bool} {a : List Char} (b : List Char)
    (ha : ∀ c ∈ a, p c = true) :
    (a ++ b).dropWhile p = b.dropWhile p := by
  induction a with
  | nil => rfl
  | cons x xs ih =>
    simp only [List.cons_append, List.dropWhile_cons,
      ha x (List.mem_cons_self x xs), if_true,
      ih (fun c hc => ha c (List.mem_cons_of_mem x hc))]

/-- Splitting `maskDigits` at a run boundary: if `a` does not end in a digit,
no digit run crosses the seam. -/
theorem maskDigits_append : ∀ (n : Nat) (a b : List Char), a.length ≤ n →
    (∀ c, a.getLast? = some c → c.isDigit = false) →
    maskDigits (a ++ b) = maskDigits a ++ maskDigits b := by
  intro n
  induction n with
  | zero =>
    intro a b ha _
    have : a = [] := List.length_eq_zero.mp (by omega)
    subst this
    simp [maskDigits_nil]
  | succ n ih =>
    intro a b ha hlast
    cases haa : a with
    | nil => simp [maskDigits_nil]
    | cons a0 atl =>
      subst haa
      have hrest : (a0 :: atl).dropWhile Char.isDigit ≠ [] := by
        intro h0
        have hall : ∀ c ∈ a0 :: atl, c.isDigit = true := by
          intro c hc
          have : c ∈ (a0 :: atl).takeWhile Char.isDigit := by
            rw [← List.takeWhile_append_dropWhile Char.isDigit (a0 :: atl)] at hc
            simpa [h0] using hc
          exact List.mem_takeWhile_imp this
        obtain ⟨c, hc⟩ : ∃ c, (a0 :: atl).getLast? = some c := by
          cases hgl : (a0 :: atl).getLast? with
          | none => exact absurd (List.getLast?_eq_none_iff.mp hgl) (by simp)
          | some c => exact ⟨c, rfl⟩
        have hmem : c ∈ a0 :: atl := List.mem_of_mem_getLast? hc
        have := hlast c hc
        rw [hall c hmem] at this
        exact Bool.noConfusion this
      obtain ⟨d, rest', hd⟩ : ∃ d rest', (a0 :: atl).dropWhile Char.isDigit = d :: rest' := by
        cases hdw : (a0 :: atl).dropWhile Char.isDigit with
        | nil => exact absurd hdw hrest
        | cons d r => exact ⟨d, r, rfl⟩
      have hdnd : d.isDigit = false := dropWhile_head_false hd
      set run := (a0 :: atl).takeWhile Char.isDigit with hrun
      have hsplit : a0 :: atl = run ++ d :: rest' := by
        rw [hrun, ← hd, List.takeWhile_append_dropWhile]
      have hrunall : ∀ c ∈ run, Char.isDigit c = true := fun c hc => List.mem_takeWhile_imp hc
      -- lengths
      have hlen : run.length + (d :: rest').length = (a0 :: atl).length := by
        rw [hsplit, List.length_append]
      -- rewrite both sides through the run
      have htw1 : ((a0 :: atl) ++ b).takeWhile Char.isDigit = run := by
        rw [hsplit, List.append_assoc, takeWhile_append_of_all _ hrunall]
        simp [List.takeWhile_cons, hdnd]
      have hdw1 : ((a0 :: atl) ++ b).dropWhile Char.isDigit = d :: (rest' ++ b) := by
        rw [hsplit, List.append_assoc, dropWhile_append_of_all _ hrunall]
        simp [List.dropWhile_cons, hdnd]
      have htw2 : (a0 :: atl).takeWhile Char.isDigit = run := rfl
      have hdw2 : (a0 :: atl).dropWhile Char.isDigit = d :: rest' := hd
      rw [maskDigits_run ((a0 :: atl) ++ b), htw1, hdw1,
        maskDigits_run (a0 :: atl), htw2, hdw2,
        maskDigits_cons_nondigit hdnd, maskDigits_cons_nondigit hdnd]
      have hlast' : ∀ c, rest'.getLast? = some c → c.isDigit = false := by
        intro c hc
        apply hlast c
        rw [hsplit, List.getLast?_append]
        have h2 : (d :: rest').getLast? = some c := by
          cases rest' with
          | nil => exact absurd hc (by simp)
          | cons r rt => rw [List.getLast?_cons_cons]; exact hc
        rw [h2]
        rfl
      have hlb : rest'.length ≤ n := by
        have h1 : (a0 :: atl).length ≤ n + 1 := ha
        simp only [List.length_cons] at h1 hlen
        omega
      rw [ih rest' b hlb hlast']
      simp [List.append_assoc]

/-! ## The digit pass equals `maskDigits` -/

theorem matchSeq_digitAtoms (prev s : List Char) :
    matchSeq digitAtoms prev s =
      if (s.takeWhile Char.isDigit).length = 0 then none
      else some (s.dropWhile Char.isDigit) := by
  simp only [digitAtoms, matchSeq]
  by_cases h : (s.takeWhile Char.isDigit).length = 0
  · rw [if_pos h, h, countdownTo_eq_nil (by omega), List.findSome?_nil]
  · rw [if_neg h]
    refine findSome?_countdownTo_top (by omega) ?_
    rw [drop_length_takeWhile]

theorem length_takeWhile_add_dropWhile (p : Char → Bool) (s : List Char) :
    (s.takeWhile p).length + (s.dropWhile p).length = s.length := by
  have h := congrArg List.length (List.takeWhile_append_dropWhile p s)
  rw [List.length_append] at h
  exact h

theorem scanSub_digit : ∀ (fuel : Nat) (s prev : List Char), s.length ≤ fuel →
    scanSub digitAtoms mask_number_group fuel prev s = maskDigits s := by
  intro fuel
  induction fuel with
  | zero =>
    intro s prev hs
    have : s = [] := List.length_eq_zero.mp (by omega)
    subst this
    rfl
  | succ f ih =>
    intro s prev hs
    cases s with
    | nil => rfl
    | cons c cs =>
      rw [scanSub, matchSeq_digitAtoms]
      by_cases hc : c.isDigit
      · have htw : ((c :: cs).takeWhile Char.isDigit) = c :: cs.takeWhile Char.isDigit := by
          simp [List.takeWhile_cons, hc]
        rw [if_neg (by simp [htw])]
        have hlen := length_takeWhile_add_dropWhile Char.isDigit (c :: cs)
        have hm : (c :: cs).take ((c :: cs).length - ((c :: cs).dropWhile Char.isDigit).length)
            = (c :: cs).takeWhile Char.isDigit := by
          have : (c :: cs).length - ((c :: cs).dropWhile Char.isDigit).length
              = ((c :: cs).takeWhile Char.isDigit).length := by omega
          rw [this, take_length_takeWhile]
        simp only [hm]
        rw [if_neg (by simp [htw])]
        have hdrop : ((c :: cs).dropWhile Char.isDigit).length ≤ f := by
          have h1 : 1 ≤ ((c :: cs).takeWhile Char.isDigit).length := by simp [htw]
          have h2 := hlen
          simp only [List.length_cons] at hs h2
          omega
        rw [ih _ _ hdrop]
        rw [maskDigits_run (c :: cs)]
      · have htw : ((c :: cs).takeWhile Char.isDigit) = [] := by
          simp [List.takeWhile_cons, (by simpa using hc : c.isDigit = false)]
        rw [if_pos (by simp [htw])]
        have : cs.length ≤ f := by simp only [List.length_cons] at hs; omega
        rw [ih _ _ this, maskDigits_cons_nondigit (by simpa using hc)]

theorem subAll_digit (s : List Char) :
    subAll digitAtoms mask_number_group s = maskDigits s :=
  scanSub_digit s.length s [] (Nat.le_refl _)

/-! ## Substring facts -/

theorem isSubstring_of_split {l b a s₀ : List Char} (hab : s₀ = a ++ b)
    (hp : l.isPrefixOf b = true) : isSubstring l s₀ = true := by
  unfold isSubstring
  rw [List.any_eq_true]
  exact ⟨b, (List.mem_tails b s₀).mpr ⟨a, hab.symm⟩, hp⟩

/-! ## The URL pass is the identity on token-free text -/

/-- No `http://`, `https://` or `www.` occurs in the text (the only tokens the
URL pattern can start with). -/
def noUrlToken (s : List Char) : Bool :=
  !(isSubstring "https://".data s) && !(isSubstring "http://".data s)
    && !(isSubstring "www.".data s)

theorem matchSeq_url_none {s₀ : List Char} (h : noUrlToken s₀ = true) :
    ∀ a b, s₀ = a ++ b → b ≠ [] → matchSeq urlAtoms a.reverse b = none := by
  have h' : isSubstring "https://".data s₀ = false
      ∧ isSubstring "http://".data s₀ = false
      ∧ isSubstring "www.".data s₀ = false := by
    simp only [noUrlToken, Bool.and_eq_true, Bool.not_eq_true'] at h
    exact ⟨h.1.1, h.1.2, h.2⟩
  intro a b hab _
  have h1 : ("https://".data).isPrefixOf b = false := by
    cases hp : ("https://".data).isPrefixOf b with
    | false => rfl
    | true => exact absurd (isSubstring_of_split hab hp) (by rw [h'.1]; simp)
  have h2 : ("http://".data).isPrefixOf b = false := by
    cases hp : ("http://".data).isPrefixOf b with
    | false => rfl
    | true => exact absurd (isSubstring_of_split hab hp) (by rw [h'.2.1]; simp)
  have h3 : ("www.".data).isPrefixOf b = false := by
    cases hp : ("www.".data).isPrefixOf b with
    | false => rfl
    | true => exact absurd (isSubstring_of_split hab hp) (by rw [h'.2.2]; simp)
  show matchSeq (.wb :: .altLit _ :: _) a.reverse b = none
  rw [matchSeq]
  split
  · rw [matchSeq]
    simp only [List.findSome?_cons, h1, h2, h3, Bool.false_eq_true, if_false,
      List.findSome?_nil]
  · rfl

theorem subAll_url_id {s : List Char} (h : noUrlToken s = true) :
    subAll urlAtoms mask_all_chars s = s :=
  subAll_id (matchSeq_url_none h)

/-! ## The keyword passes are the identity on keyword-free text -/

/-- Case-insensitive substring test. -/
def containsCI (kw s : List Char) : Bool := isSubstring (lowerL kw) (lowerL s)

theorem matchSeq_kw_prefixCI :
    ∀ (kw : List Char) (prev b r : List Char), matchSeq (kwAtoms kw) prev b = some r →
      (lowerL kw).isPrefixOf (lowerL b) = true := by
  intro kw
  induction kw with
  | nil => intro _ _ _ _; simp [lowerL]
  | cons k kt ih =>
    intro prev b r h
    cases b with
    | nil => simp [kwAtoms, matchSeq] at h
    | cons x xs =>
      simp only [kwAtoms, List.map_cons, matchSeq] at h
      split at h
      · rename_i heq
        have := ih (x :: prev) xs r h
        simp only [lowerL, List.map_cons, List.isPrefixOf_cons₂]
        rw [heq]
        simpa [lowerL] using this
      · exact absurd h (by simp)

theorem subAll_kw_id {kw s : List Char} (h : containsCI kw s = false) :
    subAll (kwAtoms kw) mask_all_chars s = s := by
  apply subAll_id
  intro a b hab _
  cases hm : matchSeq (kwAtoms kw) a.reverse b with
  | none => rfl
  | some r =>
    have hp := matchSeq_kw_prefixCI kw _ _ _ hm
    have : isSubstring (lowerL kw) (lowerL s) = true := by
      apply isSubstring_of_split (a := lowerL a) (b := lowerL b) _ hp
      rw [hab]
      simp [lowerL, List.map_append]
    rw [containsCI] at h
    rw [this] at h
    exact Bool.noConfusion h

theorem maskKeywords_id {s : List Char}
    (h : ∀ kw ∈ KEYWORDS_TO_MASK, containsCI kw s = false) :
    maskKeywords s = s := by
  have main : ∀ (kws : List (List Char)), (∀ kw ∈ kws, containsCI kw s = false) →
      kws.foldl (fun acc kw => subAll (kwAtoms kw) mask_all_chars acc) s = s := by
    intro kws
    induction kws with
    | nil => intro _; rfl
    | cons kw kws ih =>
      intro hk
      rw [List.foldl_cons, subAll_kw_id (hk kw (List.mem_cons_self kw kws))]
      exact ih (fun k hk' => hk k (List.mem_cons_of_mem kw hk'))
  exact main KEYWORDS_TO_MASK h

/-! ## The email pass is the identity when it has no match -/

theorem subAll_email_id {s : List Char} (h : hasMatch emailMaskAtoms s = false) :
    subAll emailMaskAtoms mask_email_group s = s :=
  subAll_id (hasMatch_false_imp h)

/-! ## The `''` / `'nan'` guard cannot fire on text with a digit or an `@` -/

theorem toLower_eq_self_of_toNat_lt {c : Char} (h : c.toNat < 65) : c.toLower = c := by
  simp only [Char.toLower]
  rw [if_neg (by omega)]

theorem isDigit_toNat_le {c : Char} (h : c.isDigit = true) : c.toNat ≤ 57 := by
  simp only [Char.isDigit, Bool.and_eq_true, decide_eq_true_eq] at h
  exact h.2

theorem isDigit_toNat_ge {c : Char} (h : c.isDigit = true) : 48 ≤ c.toNat := by
  simp only [Char.isDigit, Bool.and_eq_true, decide_eq_true_eq] at h
  exact h.1

theorem not_ws_of_isDigit {c : Char} (h : c.isDigit = true) : c.isWhitespace = false := by
  have h1 := isDigit_toNat_ge h
  cases hw : c.isWhitespace with
  | false => rfl
  | true =>
    simp only [Char.isWhitespace, Bool.or_eq_true, decide_eq_true_eq] at hw
    rcases hw with ((h' | h') | h') | h' <;> subst h' <;> exact absurd h1 (by decide)

theorem mem_dropWhile_of_not {p : Char → Bool} {c : Char} :
    ∀ {l : List Char}, c ∈ l → p c = false → c ∈ l.dropWhile p := by
  intro l
  induction l with
  | nil => intro h _; exact absurd h (List.not_mem_nil c)
  | cons x xs ih =>
    intro hc hp
    by_cases hx : p x
    · rw [List.dropWhile_cons, if_pos hx]
      rcases List.mem_cons.mp hc with rfl | h
      · rw [hp] at hx; exact Bool.noConfusion hx
      · exact ih h hp
    · rw [List.dropWhile_cons, if_neg hx]
      exact hc

theorem mem_trimL {c : Char} {s : List Char} (hc : c ∈ s) (h : c.isWhitespace = false) :
    c ∈ trimL s := by
  unfold trimL
  rw [List.mem_reverse]
  apply mem_dropWhile_of_not _ h
  rw [List.mem_reverse]
  exact mem_dropWhile_of_not hc h

theorem guard_false_of_safe_mem {s : List Char} {c : Char} (hc : c ∈ s)
    (hws : c.isWhitespace = false) (hlow : c.toLower = c)
    (hn : c ≠ 'n') (ha : c ≠ 'a') :
    (s.isEmpty || decide (lowerL (trimL s) = "nan".data)) = false := by
  have h1 : s.isEmpty = false := by
    cases s with
    | nil => exact absurd hc (List.not_mem_nil c)
    | cons x xs => rfl
  rw [h1, Bool.false_or, decide_eq_false_iff_not]
  intro heq
  have h2 : c ∈ trimL s := mem_trimL hc hws
  have h3 : c.toLower ∈ lowerL (trimL s) := List.mem_map_of_mem _ h2
  rw [heq, hlow] at h3
  have : c = 'n' ∨ c = 'a' ∨ c = 'n' := by simpa using h3
  rcases this with h' | h' | h' <;> first | exact hn h' | exact ha h'

theorem guard_false_of_digit_mem {s : List Char} {c : Char} (hc : c ∈ s)
    (hd : c.isDigit = true) :
    (s.isEmpty || decide (lowerL (trimL s) = "nan".data)) = false := by
  refine guard_false_of_safe_mem hc (not_ws_of_isDigit hd)
    (toLower_eq_self_of_toNat_lt (by have := isDigit_toNat_le hd; omega)) ?_ ?_
  · rintro rfl; exact absurd hd (by decide)
  · rintro rfl; exact absurd hd (by decide)

theorem guard_false_of_at_mem {s : List Char} (hc : '@' ∈ s) :
    (s.isEmpty || decide (lowerL (trimL s) = "nan".data)) = false :=
  guard_false_of_safe_mem hc (by decide) (by decide) (by decide) (by decide)

/-! ## The masker, under the hypotheses of the spec's invariants -/

theorem mask_cell_value_def (s : List Char) :
    mask_cell_value ⟨s⟩ =
      if (s.isEmpty || decide (lowerL (trimL s) = "nan".data)) = true then ""
      else ⟨maskPasses s⟩ := rfl

/-- With no URL token, no blocklist keyword and no email match, the masker is
exactly the digit-run masking (the guard is dead because a digit is present). -/
theorem mask_cell_value_eq_maskDigits {s : List Char} {c : Char} (hc : c ∈ s)
    (hd : c.isDigit = true)
    (hurl : noUrlToken s = true)
    (hkw : ∀ kw ∈ KEYWORDS_TO_MASK, containsCI kw s = false)
    (hem : hasMatch emailMaskAtoms s = false) :
    mask_cell_value ⟨s⟩ = ⟨maskDigits s⟩ := by
  rw [mask_cell_value_def, if_neg (by rw [guard_false_of_digit_mem hc hd]; simp)]
  unfold maskPasses
  rw [subAll_url_id hurl, maskKeywords_id hkw, subAll_email_id hem, subAll_digit]

theorem maskDigits_digit_run {run post : List Char}
    (hd : ∀ c ∈ run, c.isDigit = true)
    (hpost : ∀ c, post.head? = some c → c.isDigit = false) :
    maskDigits (run ++ post) = mask_number_group run ++ maskDigits post := by
  rw [maskDigits_run (run ++ post)]
  have htw : (run ++ post).takeWhile Char.isDigit = run := by
    rw [takeWhile_append_of_all _ hd]
    cases post with
    | nil => simp
    | cons q qs => simp [List.takeWhile_cons, hpost q rfl]
  have hdw : (run ++ post).dropWhile Char.isDigit = post := by
    rw [dropWhile_append_of_all _ hd]
    cases post with
    | nil => rfl
    | cons q qs => simp [List.dropWhile_cons, hpost q rfl]
  rw [htw, hdw]

/-- Decidable form of "does not end in a digit". -/
def lastNotDigit (l : List Char) : Bool :=
  match l.getLast? with
  | none => true
  | some c => !c.isDigit

/-- Decidable form of "does not start with a digit". -/
def headNotDigit (l : List Char) : Bool :=
  match l.head? with
  | none => true
  | some c => !c.isDigit

theorem lastNotDigit_imp {l : List Char} (h : lastNotDigit l = true) :
    ∀ c, l.getLast? = some c → c.isDigit = false := by
  intro c hc
  unfold lastNotDigit at h
  rw [hc] at h
  simpa using h

theorem headNotDigit_imp {l : List Char} (h : headNotDigit l = true) :
    ∀ c, l.head? = some c → c.isDigit = false := by
  intro c hc
  unfold headNotDigit at h
  rw [hc] at h
  simpa using h

/-- C4: for every input with no URL token, no blocklist keyword and no match
of the email pattern, each maximal digit run of length `n` appears in the
output of `mask_cell_value` as exactly `ceil(n/2)` leading `*` followed by the
last `n - ceil(n/2)` digits of the run verbatim, between the maskings of the
surrounding text, and the masked run's length is still `n`. -/
theorem C4_numeric_masking (s pre run post : List Char)
    (hsplit : s = pre ++ run ++ post) (hne : run ≠ [])
    (hrun : ∀ c ∈ run, c.isDigit = true)
    (hpre : lastNotDigit pre = true)
    (hpost : headNotDigit post = true)
    (hurl : noUrlToken s = true)
    (hkw : ∀ kw ∈ KEYWORDS_TO_MASK, containsCI kw s = false)
    (hem : hasMatch emailMaskAtoms s = false) :
    mask_cell_value ⟨s⟩ =
      ⟨maskDigits pre ++ (List.replicate (ceilHalf run.length) '*'
        ++ run.drop (ceilHalf run.length)) ++ maskDigits post⟩
    ∧ (List.replicate (ceilHalf run.length) '*'
        ++ run.drop (ceilHalf run.length)).length = run.length := by
  obtain ⟨r0, rtl, hr⟩ : ∃ r0 rtl, run = r0 :: rtl := by
    cases run with
    | nil => exact absurd rfl hne
    | cons a b => exact ⟨a, b, rfl⟩
  have hr0d : r0.isDigit = true := hrun r0 (by rw [hr]; exact List.mem_cons_self _ _)
  have hr0mem : r0 ∈ s := by rw [hsplit, hr]; simp
  constructor
  · rw [mask_cell_value_eq_maskDigits hr0mem hr0d hurl hkw hem]
    have h1 : maskDigits (pre ++ (run ++ post))
        = maskDigits pre ++ maskDigits (run ++ post) :=
      maskDigits_append pre.length pre (run ++ post) (Nat.le_refl _)
        (lastNotDigit_imp hpre)
    have h2 := maskDigits_digit_run hrun (headNotDigit_imp hpost)
    rw [hsplit, List.append_assoc, h1, h2]
    simp [mask_number_group, List.append_assoc]
  · have hle : ceilHalf run.length ≤ run.length := by
      rw [hr]
      simp only [List.length_cons]
      unfold ceilHalf
      omega
    simp only [List.length_append, List.length_replicate, List.length_drop]
    omega

/-- C4 witness: the theorem applied to `"abc 12345"` with its maximal run
`12345`. -/
theorem C4_numeric_masking_witness :
    mask_cell_value ⟨("abc 12345").data⟩ =
      ⟨maskDigits ("abc ").data ++ (List.replicate (ceilHalf ("12345").data.length) '*'
        ++ ("12345").data.drop (ceilHalf ("12345").data.length)) ++ maskDigits []⟩
    ∧ (List.replicate (ceilHalf ("12345").data.length) '*'
        ++ ("12345").data.drop (ceilHalf ("12345").data.length)).length
        = ("12345").data.length :=
  C4_numeric_masking ("abc 12345").data ("abc ").data ("12345").data []
    (by decide) (by decide) (by decide) (by decide) (by decide) (by decide)
    (by decide) (by decide)

/-- C2 counterexample: on the spec's concrete scenario input, the masker does
not return the claimed string (whose URL replacement has 16 asterisks — the
matched URL `https://trangvang.vn/x` has 22 characters). -/
theorem C2_counterexample :
    mask_cell_value "Contact: john.doe@example.com or 0987654321, see https://trangvang.vn/x"
      ≠ "Contact: ********@example.com or *****54321, see ****************" := by
  decide

/-- C2: masking the scenario cell yields the claimed email masking (8 stars,
`@example.com` kept), digit masking (`*****54321`), and a 22-asterisk run for
the 22-character URL (not the spec's 16). -/
theorem C2_scenario_masking :
    mask_cell_value "Contact: john.doe@example.com or 0987654321, see https://trangvang.vn/x"
      = "Contact: ********@example.com or *****54321, see **********************" := by
  decide

/-! ## Step lemmas for `matchSeq` -/

theorem matchSeq_wb_cons {ps : List RAtom} {prev s : List Char}
    (h : wordBoundary prev s = true) :
    matchSeq (.wb :: ps) prev s = matchSeq ps prev s := by
  simp only [matchSeq, h, if_true]

theorem matchSeq_lit_cons {ps : List RAtom} {prev : List Char} {c x : Char}
    {xs : List Char} (h : x = c) :
    matchSeq (.lit c :: ps) prev (x :: xs) = matchSeq ps (x :: prev) xs := by
  simp only [matchSeq, h, if_true]

theorem matchSeq_lit_nil {ps : List RAtom} {prev : List Char} {c : Char} :
    matchSeq (.lit c :: ps) prev [] = none := rfl

theorem matchSeq_lit_ne {ps : List RAtom} {prev : List Char} {c x : Char}
    {xs : List Char} (h : ¬ x = c) :
    matchSeq (.lit c :: ps) prev (x :: xs) = none := by
  simp only [matchSeq, h, if_false]

theorem matchSeq_repGe_eq {ps : List RAtom} {prev s : List Char} {m : Nat}
    {p : Char → Bool} :
    matchSeq (.repGe m p :: ps) prev s
      = (countdownTo (s.takeWhile p).length m).findSome?
          (fun k => matchSeq ps ((s.take k).reverse ++ prev) (s.drop k)) := rfl

theorem scanSub_nil (pat : List RAtom) (repl : List Char → List Char) :
    ∀ fuel prev, scanSub pat repl fuel prev [] = [] := by
  intro fuel prev
  cases fuel <;> rfl

/-! ## Character-class consequences -/

theorem isAlpha_toNat {c : Char} (h : c.isAlpha = true) :
    (65 ≤ c.toNat ∧ c.toNat ≤ 90) ∨ (97 ≤ c.toNat ∧ c.toNat ≤ 122) := by
  simp only [Char.isAlpha, Char.isUpper, Char.isLower, Bool.or_eq_true,
    Bool.and_eq_true, decide_eq_true_eq] at h
  rcases h with ⟨h1, h2⟩ | ⟨h1, h2⟩
  · exact Or.inl ⟨h1, h2⟩
  · exact Or.inr ⟨h1, h2⟩

theorem isDigit_false_of_isAlpha {c : Char} (h : c.isAlpha = true) :
    c.isDigit = false := by
  cases hd : c.isDigit with
  | false => rfl
  | true =>
    have h1 := isDigit_toNat_le hd
    have h2 := isDigit_toNat_ge hd
    rcases isAlpha_toNat h with ⟨h3, h4⟩ | ⟨h3, h4⟩ <;> omega

theorem isWordChar_of_isAlpha {c : Char} (h : c.isAlpha = true) :
    isWordChar c = true := by
  simp [isWordChar, Char.isAlphanum, h]

theorem isDomainChar_of_isAlpha {c : Char} (h : c.isAlpha = true) :
    isDomainChar c = true := by
  simp [isDomainChar, Char.isAlphanum, h]

theorem ne_dot_of_isAlpha {c : Char} (h : c.isAlpha = true) : ¬ c = '.' := by
  rintro rfl
  exact absurd h (by decide)

theorem ne_at_of_isLocalChar {c : Char} (h : isLocalChar c = true) : ¬ c = '@' := by
  rintro rfl
  exact absurd h (by decide)

/-- Decidable form of "starts with a word character" (in particular,
nonempty). -/
def headWord (l : List Char) : Bool :=
  match l.head? with
  | none => false
  | some c => isWordChar c

/-! ## The email pattern consumes a well-formed address entirely -/

theorem matchSeq_email_full {user pre tld : List Char}
    (hw : headWord user = true)
    (huser : ∀ c ∈ user, isLocalChar c = true)
    (hpre : pre ≠ [])
    (hpreD : ∀ c ∈ pre, isDomainChar c = true)
    (htld : ∀ c ∈ tld, c.isAlpha = true)
    (htl : 2 ≤ tld.length) :
    matchSeq emailMaskAtoms [] (user ++ '@' :: (pre ++ '.' :: tld)) = some [] := by
  obtain ⟨u0, ut, hu⟩ : ∃ u0 ut, user = u0 :: ut := by
    cases hu : user with
    | nil => rw [hu] at hw; exact absurd hw (by decide)
    | cons a b => exact ⟨a, b, rfl⟩
  have hu0 : isWordChar u0 = true := by
    unfold headWord at hw
    rw [hu] at hw
    simpa using hw
  set domain := pre ++ '.' :: tld with hdomain
  -- the leading word boundary
  rw [show emailMaskAtoms
      = .wb :: [.repGe 1 isLocalChar, .lit '@', .repGe 1 isDomainChar, .lit '.',
        .repGe 2 Char.isAlpha, .wb] from rfl,
    matchSeq_wb_cons (by rw [hu]; simp [wordBoundary, hu0])]
  -- the local part, greedily `user`
  rw [matchSeq_repGe_eq]
  have htw : (user ++ '@' :: domain).takeWhile isLocalChar = user := by
    rw [takeWhile_append_of_all _ huser, List.takeWhile_cons]
    simp [isLocalChar]
  rw [htw]
  apply findSome?_countdownTo_top (by rw [hu]; simp)
  show matchSeq _ (((user ++ '@' :: domain).take user.length).reverse ++ [])
    ((user ++ '@' :: domain).drop user.length) = some []
  rw [List.take_left, List.drop_left, matchSeq_lit_cons rfl]
  -- the domain: greedy run is all of it, backtracking stops at the last dot
  rw [matchSeq_repGe_eq]
  have hdomall : ∀ c ∈ domain, isDomainChar c = true := by
    intro c hc
    rw [hdomain] at hc
    rcases List.mem_append.mp hc with h | h
    · exact hpreD c h
    · rcases List.mem_cons.mp h with rfl | h
      · decide
      · exact isDomainChar_of_isAlpha (htld c h)
  rw [takeWhile_eq_self_of_all hdomall]
  have hdlen : domain.length = pre.length + 1 + tld.length := by
    rw [hdomain]
    simp [List.length_append]
    omega
  apply findSome?_countdownTo_mid (k := pre.length)
    (by cases pre with
        | nil => exact absurd rfl hpre
        | cons a b => simp)
    (by omega)
  · -- success at the seam before `.tld`
    show matchSeq _ ((domain.take pre.length).reverse ++ _)
      (domain.drop pre.length) = some []
    rw [show domain.take pre.length = pre by rw [hdomain]; exact List.take_left _ _,
      show domain.drop pre.length = '.' :: tld by rw [hdomain]; exact List.drop_left _ _,
      matchSeq_lit_cons rfl, matchSeq_repGe_eq, takeWhile_eq_self_of_all htld]
    apply findSome?_countdownTo_top htl
    show matchSeq _ ((tld.take tld.length).reverse ++ _) (tld.drop tld.length) = some []
    rw [List.take_length, List.drop_length]
    obtain ⟨t0, tr, ht⟩ : ∃ t0 tr, tld.reverse = t0 :: tr := by
      cases ht : tld.reverse with
      | nil =>
        have : tld.length = 0 := by
          have := congrArg List.length ht
          simpa using this
        omega
      | cons a b => exact ⟨a, b, rfl⟩
    have ht0 : isWordChar t0 = true := by
      apply isWordChar_of_isAlpha
      apply htld
      rw [← List.mem_reverse, ht]
      exact List.mem_cons_self _ _
    rw [matchSeq_wb_cons (by rw [ht]; simp [wordBoundary, ht0])]
    rfl
  · -- every longer candidate fails: it faces a letter of `tld` or the end
    intro j hj1 hj2
    show matchSeq _ ((domain.take j).reverse ++ _) (domain.drop j) = none
    rcases Nat.eq_or_lt_of_le hj2 with heq | hlt
    · rw [heq, List.drop_length]
      exact matchSeq_lit_nil
    · have hij : j = pre.length + (1 + (j - pre.length - 1)) := by omega
      have hdrop : domain.drop j = tld.drop (j - pre.length - 1) := by
        conv_lhs => rw [hdomain, hij]
        rw [List.drop_append,
          show (1 + (j - pre.length - 1)) = (j - pre.length - 1) + 1 from by omega,
          List.drop_succ_cons]
      have hi : j - pre.length - 1 < tld.length := by omega
      obtain ⟨t, ts, htds⟩ : ∃ t ts, tld.drop (j - pre.length - 1) = t :: ts := by
        cases htds : tld.drop (j - pre.length - 1) with
        | nil =>
          have := congrArg List.length htds
          simp [List.length_drop] at this
          omega
        | cons a b => exact ⟨a, b, rfl⟩
      have htmem : t ∈ tld := by
        apply (List.drop_sublist (j - pre.length - 1) tld).subset
        rw [htds]
        exact List.mem_cons_self _ _
      rw [hdrop, htds]
      exact matchSeq_lit_ne (ne_dot_of_isAlpha (htld t htmem))

/-- C3 counterexample: the claim fails as stated — a valid local part may begin
with a non-word character such as `.` (the pattern's `\b` then shifts the
match inside the local part), and a domain may contain digits (which the
digit pass then masks, so the domain is not preserved verbatim). -/
theorem C3_counterexample :
    mask_cell_value ".x@a.bc" ≠ "**@a.bc" ∧ mask_cell_value "a@b1.cc" ≠ "*@b1.cc" := by
  constructor <;> decide

/-- C3: for an input that is exactly `user@pre.tld` — `user` over the local
class and starting with a word character, `pre` nonempty, over the domain
class and digit-free, `tld` at least two letters — containing no URL token
and no blocklist keyword, the masked output is `len(user)` asterisks, `@`,
then the domain verbatim. -/
theorem C3_email_masking (user pre tld : List Char)
    (hw : headWord user = true)
    (huser : ∀ c ∈ user, isLocalChar c = true)
    (hpre : pre ≠ [])
    (hpreD : ∀ c ∈ pre, isDomainChar c = true)
    (hpreND : ∀ c ∈ pre, c.isDigit = false)
    (htld : ∀ c ∈ tld, c.isAlpha = true)
    (htl : 2 ≤ tld.length)
    (hurl : noUrlToken (user ++ '@' :: (pre ++ '.' :: tld)) = true)
    (hkw : ∀ kw ∈ KEYWORDS_TO_MASK,
      containsCI kw (user ++ '@' :: (pre ++ '.' :: tld)) = false) :
    mask_cell_value ⟨user ++ '@' :: (pre ++ '.' :: tld)⟩ =
      ⟨List.replicate user.length '*' ++ '@' :: (pre ++ '.' :: tld)⟩ := by
  obtain ⟨u0, ut, hu⟩ : ∃ u0 ut, user = u0 :: ut := by
    cases hu : user with
    | nil => rw [hu] at hw; exact absurd hw (by decide)
    | cons a b => exact ⟨a, b, rfl⟩
  set domain := pre ++ '.' :: tld with hdomain
  set s := user ++ '@' :: domain with hs
  have hat : '@' ∈ s := by rw [hs]; simp
  rw [mask_cell_value_def, if_neg (by rw [guard_false_of_at_mem hat]; simp)]
  unfold maskPasses
  rw [subAll_url_id hurl, maskKeywords_id hkw]
  have hm : matchSeq emailMaskAtoms [] s = some [] :=
    matchSeq_email_full hw huser hpre hpreD htld htl
  have hscons : s = u0 :: (ut ++ '@' :: domain) := by rw [hs, hu]; rfl
  have hsub : subAll emailMaskAtoms mask_email_group s = mask_email_group s := by
    unfold subAll
    rw [hscons] at hm ⊢
    simp only [scanSub, hm, List.length_nil, Nat.sub_zero, List.take_length,
      List.isEmpty_cons, Bool.false_eq_true, if_false, scanSub_nil, List.append_nil]
  have htkw : s.takeWhile (fun c => decide ¬(c = '@')) = user := by
    rw [hs, takeWhile_append_of_all _
      (fun c hc => decide_eq_true (ne_at_of_isLocalChar (huser c hc))),
      List.takeWhile_cons]
    simp
  have hdrw : s.dropWhile (fun c => decide ¬(c = '@')) = '@' :: domain := by
    rw [hs, dropWhile_append_of_all _
      (fun c hc => decide_eq_true (ne_at_of_isLocalChar (huser c hc))),
      List.dropWhile_cons]
    simp
  have hmeg : mask_email_group s = List.replicate user.length '*' ++ '@' :: domain := by
    unfold mask_email_group
    rw [if_pos hat, htkw, hdrw]
  have hnod : ∀ c ∈ List.replicate user.length '*' ++ '@' :: domain,
      c.isDigit = false := by
    intro c hc
    rcases List.mem_append.mp hc with h | h
    · rw [List.eq_of_mem_replicate h]; decide
    · rcases List.mem_cons.mp h with rfl | h
      · decide
      · rw [hdomain] at h
        rcases List.mem_append.mp h with h | h
        · exact hpreND c h
        · rcases List.mem_cons.mp h with rfl | h
          · decide
          · exact isDigit_false_of_isAlpha (htld c h)
  rw [hsub, hmeg, subAll_digit, maskDigits_of_no_digit hnod]

/-- C3 witness: the theorem applied to `john@example.com`. -/
theorem C3_email_masking_witness :
    mask_cell_value ⟨"john".data ++ '@' :: ("example".data ++ '.' :: "com".data)⟩ =
      ⟨List.replicate ("john".data).length '*'
        ++ '@' :: ("example".data ++ '.' :: "com".data)⟩ :=
  C3_email_masking "john".data "example".data "com".data (by decide) (by decide)
    (by decide) (by decide) (by decide) (by decide) (by decide) (by decide)
    (by decide)

/-! ## The auditor's number scan, characterized

`(?<!\*)\b\d{7,}\b` finds exactly the maximal digit runs of length ≥ 7 whose
left neighbour is absent or a non-word character other than `*`, and whose
right neighbour is absent or a non-word character. -/

/-- The `(?<!\*)\b` part: the character before the run. -/
def prevOk : Option Char → Bool
  | none => true
  | some p => !isWordChar p && decide (¬ p = '*')

/-- The trailing `\b`: the character after the run. -/
def nextOk : Option Char → Bool
  | none => true
  | some c => !isWordChar c

/-- Whether a maximal digit run between neighbours `p` and `c` is flagged by
the auditor's number pattern. -/
def runQualifies (p : Option Char) (run : List Char) (c : Option Char) : Bool :=
  decide (7 ≤ run.length) && prevOk p && nextOk c

/-- The flagged digit runs of a text, in order (`prev` is the character before
the open run, `runRev` the open run, reversed). -/
def numberLeaksAux : Option Char → List Char → List Char → List (List Char)
  | prev, runRev, [] =>
    if runQualifies prev runRev.reverse none then [runRev.reverse] else []
  | prev, runRev, c :: cs =>
    if c.isDigit then numberLeaksAux prev (c :: runRev) cs
    else
      (if runQualifies prev runRev.reverse (some c) then [runRev.reverse] else [])
        ++ numberLeaksAux (some c) [] cs

/-- The flagged digit runs of a text. -/
def numberLeaks (s : List Char) : List (List Char) := numberLeaksAux none [] s

theorem isWordChar_of_isDigit {c : Char} (h : c.isDigit = true) :
    isWordChar c = true := by
  simp [isWordChar, Char.isAlphanum, h]

theorem ne_star_of_isDigit {c : Char} (h : c.isDigit = true) : ¬ c = '*' := by
  rintro rfl
  exact absurd h (by decide)

/-- No match of the number pattern starts at a non-digit. -/
theorem matchSeq_number_nondigit {prev s : List Char} {c : Char} {cs : List Char}
    (hs : s = c :: cs) (hc : c.isDigit = false) :
    matchSeq numberAuditAtoms prev s = none := by
  subst hs
  have htw : ((c :: cs).takeWhile Char.isDigit).length = 0 := by
    simp [List.takeWhile_cons, hc]
  have hrep : matchSeq [RAtom.repGe 7 Char.isDigit, .wb] prev (c :: cs) = none := by
    rw [matchSeq_repGe_eq, htw, countdownTo_eq_nil (by omega), List.findSome?_nil]
  have hwb : matchSeq (.wb :: [RAtom.repGe 7 Char.isDigit, .wb]) prev (c :: cs) = none := by
    rw [matchSeq]
    split
    · exact hrep
    · rfl
  cases prev with
  | nil => exact hwb
  | cons p pr =>
    show (if p = '*' then none
      else matchSeq (.wb :: [RAtom.repGe 7 Char.isDigit, .wb]) (p :: pr) (c :: cs)) = none
    split
    · rfl
    · exact hwb

/-- No match of the number pattern starts inside a digit run. -/
theorem matchSeq_number_digit_prev {p : Char} {pr : List Char} {c : Char}
    {cs : List Char} (hp : p.isDigit = true) (hc : c.isDigit = true) :
    matchSeq numberAuditAtoms (p :: pr) (c :: cs) = none := by
  show (if p = '*' then none else matchSeq (.wb :: _) (p :: pr) (c :: cs)) = none
  rw [if_neg (ne_star_of_isDigit hp), matchSeq, if_neg]
  simp only [wordBoundary, List.head?_cons, isWordChar_of_isDigit hp,
    isWordChar_of_isDigit hc]
  simp

/-- The `\d{7,}\b` tail of the pattern, at the start of a maximal run. -/
theorem matchSeq_number_tail {prevRev s : List Char} {d : Char} {cs : List Char}
    (hs : s = d :: cs) (hd : d.isDigit = true) :
    matchSeq [RAtom.repGe 7 Char.isDigit, .wb] prevRev s =
      if (decide (7 ≤ (s.takeWhile Char.isDigit).length)
          && nextOk (s.dropWhile Char.isDigit).head?) = true
      then some (s.dropWhile Char.isDigit) else none := by
  set run := s.takeWhile Char.isDigit with hrun
  set rest := s.dropWhile Char.isDigit with hrest
  set n := run.length with hn
  have hrunall : ∀ x ∈ run, x.isDigit = true := fun x hx => List.mem_takeWhile_imp hx
  have hn1 : 1 ≤ n := by
    rw [hn, hrun, hs]
    simp [List.takeWhile_cons, hd]
  have hnlen : n ≤ s.length := by
    have := length_takeWhile_add_dropWhile Char.isDigit s
    rw [← hrun, ← hrest, ← hn] at this
    omega
  have hdig_take : ∀ k, k ≤ n → ∀ x ∈ s.take k, x.isDigit = true := by
    intro k hk x hx
    apply hrunall
    rw [hrun, ← take_length_takeWhile Char.isDigit s, ← hrun, ← hn]
    have heq : s.take k = (s.take n).take k := by
      rw [List.take_take, Nat.min_eq_left hk]
    rw [heq] at hx
    exact List.take_subset _ _ hx
  have htkrev : ∀ k, 1 ≤ k → k ≤ n →
      ∃ x, ((s.take k).reverse).head? = some x ∧ x.isDigit = true := by
    intro k h1 h2
    have hne : s.take k ≠ [] := by
      intro h0
      have := congrArg List.length h0
      rw [List.length_take] at this
      simp only [List.length_nil] at this
      omega
    obtain ⟨x, hx⟩ : ∃ x, (s.take k).getLast? = some x := by
      cases hgl : (s.take k).getLast? with
      | none => exact absurd (List.getLast?_eq_none_iff.mp hgl) hne
      | some x => exact ⟨x, rfl⟩
    refine ⟨x, ?_, hdig_take k h2 x (List.mem_of_mem_getLast? hx)⟩
    rw [List.head?_reverse]
    exact hx
  rw [matchSeq_repGe_eq, ← hrun, ← hn]
  by_cases h7 : 7 ≤ n
  · -- the boundary check after `k` consumed digits
    have hprevhead : ∀ k, 1 ≤ k → k ≤ n →
        ∃ x, (((s.take k).reverse) ++ prevRev).head? = some x ∧ x.isDigit = true := by
      intro k h1 h2
      obtain ⟨x, hx1, hx2⟩ := htkrev k h1 h2
      refine ⟨x, ?_, hx2⟩
      rw [List.head?_append_of_ne_nil _ (by intro h0; rw [h0] at hx1; simp at hx1)]
      exact hx1
    have hfmid : ∀ k, 7 ≤ k → k < n →
        matchSeq [RAtom.wb] ((s.take k).reverse ++ prevRev) (s.drop k) = none := by
      intro k hk7 hkn
      obtain ⟨x, hx1, hx2⟩ := hprevhead k (by omega) (by omega)
      have hdk : s.drop k = run.drop k ++ rest := by
        conv_lhs => rw [← List.takeWhile_append_dropWhile Char.isDigit s, ← hrun, ← hrest]
        exact List.drop_append_of_le_length (by omega)
      have hrdne : run.drop k ≠ [] := by
        intro h0
        have := congrArg List.length h0
        rw [List.length_drop] at this
        simp only [List.length_nil] at this
        omega
      obtain ⟨y, hy⟩ : ∃ y, (run.drop k).head? = some y := by
        cases hh : (run.drop k).head? with
        | none => exact absurd (List.head?_eq_none_iff.mp hh) hrdne
        | some y => exact ⟨y, rfl⟩
      have hymem : y ∈ run := (List.drop_sublist k run).subset (List.mem_of_mem_head? hy)
      have hydig : y.isDigit = true := hrunall y hymem
      have hb : wordBoundary ((s.take k).reverse ++ prevRev) (s.drop k) = false := by
        have hh : (s.drop k).head? = some y := by
          rw [hdk, List.head?_append_of_ne_nil _ hrdne]
          exact hy
        simp only [wordBoundary, hx1, hh, isWordChar_of_isDigit hx2,
          isWordChar_of_isDigit hydig]
        simp
      rw [matchSeq, if_neg (by simp [hb])]
    have hdropn : s.drop n = rest := by
      rw [hn, hrun, drop_length_takeWhile, hrest]
    obtain ⟨x, hx1, hx2⟩ := hprevhead n (by omega) (Nat.le_refl _)
    by_cases hnx : nextOk rest.head? = true
    · rw [if_pos (by rw [hnx]; simp [h7])]
      apply findSome?_countdownTo_top h7
      show matchSeq [RAtom.wb] ((s.take n).reverse ++ prevRev) (s.drop n) = some rest
      have hb : wordBoundary ((s.take n).reverse ++ prevRev) (s.drop n) = true := by
        rw [hdropn]
        cases hrh : rest.head? with
        | none => simp [wordBoundary, hx1, hrh, isWordChar_of_isDigit hx2]
        | some c =>
          have hcf : isWordChar c = false := by
            unfold nextOk at hnx
            rw [hrh] at hnx
            simpa using hnx
          simp [wordBoundary, hx1, hrh, isWordChar_of_isDigit hx2, hcf]
      rw [matchSeq, if_pos hb, hdropn]
      rfl
    · rw [if_neg (by simp at hnx ⊢; intro _; simpa using hnx)]
      apply findSome?_countdownTo_none
      intro j hj7 hjn
      rcases Nat.eq_or_lt_of_le hjn with heq | hlt
      · rw [heq]
        show matchSeq [RAtom.wb] ((s.take n).reverse ++ prevRev) (s.drop n) = none
        have hb : wordBoundary ((s.take n).reverse ++ prevRev) (s.drop n) = false := by
          rw [hdropn]
          cases hrh : rest.head? with
          | none => exact absurd (by rw [hrh]; rfl : nextOk rest.head? = true) hnx
          | some c =>
            have hcw : isWordChar c = true := by
              unfold nextOk at hnx
              rw [hrh] at hnx
              simpa using hnx
            simp [wordBoundary, hx1, hrh, isWordChar_of_isDigit hx2, hcw]
        rw [matchSeq, if_neg (by simp [hb])]
      · exact hfmid j hj7 hlt
  · rw [countdownTo_eq_nil (by omega), List.findSome?_nil,
      if_neg (by simp; intro h; omega)]

/-- At the start of a maximal digit run, the number pattern matches exactly
the run, exactly when the run qualifies. -/
theorem matchSeq_number_at_run {prev : List Char} {d : Char} {cs : List Char}
    (hd : d.isDigit = true) :
    matchSeq numberAuditAtoms prev (d :: cs) =
      if runQualifies prev.head? ((d :: cs).takeWhile Char.isDigit)
          ((d :: cs).dropWhile Char.isDigit).head?
      then some ((d :: cs).dropWhile Char.isDigit) else none := by
  have htail := @matchSeq_number_tail prev (d :: cs) d cs rfl hd
  cases prev with
  | nil =>
    show matchSeq (.wb :: _) [] (d :: cs) = _
    rw [matchSeq, if_pos (by simp [wordBoundary, isWordChar_of_isDigit hd]), htail]
    simp only [runQualifies, List.head?_nil, prevOk, Bool.and_true]
  | cons p pr =>
    show (if p = '*' then none else matchSeq (.wb :: _) (p :: pr) (d :: cs)) = _
    by_cases hstar : p = '*'
    · rw [if_pos hstar]
      rw [if_neg]
      simp only [runQualifies, List.head?_cons, prevOk, hstar]
      simp
    · rw [if_neg hstar]
      by_cases hw : isWordChar p = true
      · rw [matchSeq, if_neg, if_neg]
        · simp only [runQualifies, List.head?_cons, prevOk, hw]
          simp
        · simp [wordBoundary, isWordChar_of_isDigit hd, hw]
      · rw [matchSeq, if_pos, htail]
        · simp only [runQualifies, List.head?_cons, prevOk,
            (by simpa using hw : isWordChar p = false), hstar]
          congr 1
          simp [Bool.and_assoc]
        · simp [wordBoundary, isWordChar_of_isDigit hd,
            (by simpa using hw : isWordChar p = false)]

theorem scanFind_nil (pat : List RAtom) : ∀ fuel prev, scanFind pat fuel prev [] = [] := by
  intro fuel prev
  cases fuel <;> rfl

theorem runQualifies_nil (p : Option Char) (x : Option Char) :
    runQualifies p [] x = false := by
  simp [runQualifies]

theorem numberLeaksAux_consume : ∀ (ds : List Char) (prev : Option Char)
    (runRev rest : List Char), (∀ c ∈ ds, c.isDigit = true) →
    numberLeaksAux prev runRev (ds ++ rest) = numberLeaksAux prev (ds.reverse ++ runRev) rest := by
  intro ds
  induction ds with
  | nil => intro prev runRev rest _; rfl
  | cons d dt ih =>
    intro prev runRev rest hds
    show numberLeaksAux prev runRev (d :: (dt ++ rest)) = _
    rw [numberLeaksAux, if_pos (hds d (List.mem_cons_self d dt)),
      ih prev (d :: runRev) rest (fun c hc => hds c (List.mem_cons_of_mem d hc))]
    simp [List.reverse_cons, List.append_assoc]

theorem numberLeaksAux_nondigit_cons {p : Option Char} {r : Char} {rs : List Char}
    (hr : r.isDigit = false) :
    numberLeaksAux p [] (r :: rs) = numberLeaksAux (some r) [] rs := by
  rw [numberLeaksAux, if_neg (by simp [hr])]
  simp [runQualifies]

theorem scanFind_digits_no_match : ∀ (ds : List Char) (fuel : Nat) (p : Char)
    (pr rest : List Char), p.isDigit = true → (∀ c ∈ ds, c.isDigit = true) →
    scanFind numberAuditAtoms fuel (p :: pr) (ds ++ rest)
      = scanFind numberAuditAtoms (fuel - ds.length) (ds.reverse ++ (p :: pr)) rest := by
  intro ds
  induction ds with
  | nil => intro fuel p pr rest _ _; simp
  | cons d dt ih =>
    intro fuel p pr rest hp hds
    cases fuel with
    | zero =>
      have h0 : (0 : Nat) - (d :: dt).length = 0 := by omega
      rw [h0]
      rfl
    | succ f =>
      show scanFind numberAuditAtoms (f + 1) (p :: pr) (d :: (dt ++ rest)) = _
      rw [scanFind,
        matchSeq_number_digit_prev hp (hds d (List.mem_cons_self d dt)),
        ih f d (p :: pr) rest (hds d (List.mem_cons_self d dt))
          (fun c hc => hds c (List.mem_cons_of_mem d hc))]
      simp only [List.length_cons, List.reverse_cons, List.append_assoc,
        List.cons_append, List.nil_append]
      congr 1
      omega

/-- Unfolding `numberLeaksAux` at the end of the text. -/
theorem numberLeaksAux_nil (p : Option Char) (runRev : List Char) :
    numberLeaksAux p runRev []
      = if runQualifies p runRev.reverse none then [runRev.reverse] else [] := rfl

/-- Unfolding `numberLeaksAux` at a non-digit: the open run is emitted if it
qualifies. -/
theorem numberLeaksAux_emit {p : Option Char} {runRev : List Char} {r : Char}
    {rs : List Char} (hr : r.isDigit = false) :
    numberLeaksAux p runRev (r :: rs) =
      (if runQualifies p runRev.reverse (some r) then [runRev.reverse] else [])
        ++ numberLeaksAux (some r) [] rs := by
  rw [numberLeaksAux, if_neg (by simp [hr])]

/-- The auditor's number scan finds exactly the flagged maximal digit runs. -/
theorem scanFind_number_eq : ∀ (fuel : Nat) (s prev : List Char), s.length ≤ fuel →
    scanFind numberAuditAtoms fuel prev s = numberLeaksAux prev.head? [] s := by
  intro fuel
  induction fuel using Nat.strong_induction_on with
  | _ fuel ih =>
    intro s prev hs
    cases s with
    | nil =>
      rw [scanFind_nil, numberLeaksAux_nil]
      simp [runQualifies]
    | cons c cs =>
      cases fuel with
      | zero => simp at hs
      | succ f =>
        set run := (c :: cs).takeWhile Char.isDigit with hrun
        set rest := (c :: cs).dropWhile Char.isDigit with hrest
        have hsplit : c :: cs = run ++ rest := (List.takeWhile_append_dropWhile _ _).symm
        have hrunall : ∀ x ∈ run, x.isDigit = true := fun x hx => List.mem_takeWhile_imp hx
        have hlen := length_takeWhile_add_dropWhile Char.isDigit (c :: cs)
        rw [← hrun, ← hrest] at hlen
        have hlen' : run.length + rest.length = cs.length + 1 := by
          simpa only [List.length_cons] using hlen
        have hs' : cs.length + 1 ≤ f + 1 := by simpa only [List.length_cons] using hs
        by_cases hc : c.isDigit
        · have hruncons : run = c :: cs.takeWhile Char.isDigit := by
            rw [hrun]; simp [List.takeWhile_cons, hc]
          have hrestcs : rest = cs.dropWhile Char.isDigit := by
            rw [hrest]; simp [List.dropWhile_cons, hc]
          have hrun1 : 1 ≤ run.length := by rw [hruncons]; simp
          have hrestlt : rest.length ≤ f := by omega
          rw [scanFind, matchSeq_number_at_run hc, ← hrun, ← hrest]
          by_cases hq : runQualifies prev.head? run rest.head? = true
          · rw [if_pos hq]
            have hm : (c :: cs).take ((c :: cs).length - rest.length) = run := by
              have h0 : (c :: cs).length - rest.length = run.length := by
                simp only [List.length_cons]
                omega
              rw [h0, hrun, take_length_takeWhile]
            simp only [hm]
            rw [if_neg (by rw [hruncons]; simp)]
            cases hrc : rest with
            | nil =>
              have hq' : runQualifies prev.head? run none = true := by
                rw [hrc] at hq; simpa using hq
              have hsplit' : c :: cs = run := by rw [hsplit, hrc, List.append_nil]
              have hcons : numberLeaksAux prev.head? [] run
                  = numberLeaksAux prev.head? run.reverse [] := by
                conv_lhs => rw [show run = run ++ [] from by simp]
                rw [numberLeaksAux_consume run prev.head? [] [] hrunall, List.append_nil]
              rw [scanFind_nil, hsplit', hcons, numberLeaksAux_nil,
                List.reverse_reverse, if_pos hq']
            | cons r rs =>
              have hq' : runQualifies prev.head? run (some r) = true := by
                rw [hrc] at hq; simpa using hq
              have hrd : r.isDigit = false := by
                apply dropWhile_head_false (p := Char.isDigit) (l := c :: cs)
                rw [← hrest, hrc]
              have hprevne : run.reverse ≠ [] := by
                intro h0
                have h1 := congrArg List.length h0
                simp only [List.length_reverse, List.length_nil] at h1
                omega
              have hihead : ∃ d₀, (run.reverse ++ prev).head? = some d₀
                  ∧ d₀.isDigit = true := by
                obtain ⟨x, hx⟩ : ∃ x, run.getLast? = some x := by
                  cases hgl : run.getLast? with
                  | none =>
                    exact absurd (List.getLast?_eq_none_iff.mp hgl)
                      (by rw [hruncons]; simp)
                  | some x => exact ⟨x, rfl⟩
                refine ⟨x, ?_, hrunall x (List.mem_of_mem_getLast? hx)⟩
                rw [List.head?_append_of_ne_nil _ hprevne, List.head?_reverse]
                exact hx
              obtain ⟨d₀, hd₀, hd₀dig⟩ := hihead
              have hsplit' : c :: cs = run ++ r :: rs := by rw [hsplit, hrc]
              have hrl : (r :: rs).length ≤ f := by rw [← hrc]; exact hrestlt
              rw [ih f (by omega) (r :: rs) (run.reverse ++ prev) hrl, hd₀,
                numberLeaksAux_nondigit_cons hrd, hsplit',
                numberLeaksAux_consume run prev.head? [] (r :: rs) hrunall,
                List.append_nil, numberLeaksAux_emit hrd, List.reverse_reverse,
                if_pos hq']
              rfl
          · rw [if_neg hq]
            show scanFind numberAuditAtoms f (c :: prev) cs
              = numberLeaksAux prev.head? [] (c :: cs)
            have hcs : cs = cs.takeWhile Char.isDigit ++ rest := by
              rw [hrestcs]
              exact (List.takeWhile_append_dropWhile _ _).symm
            conv_lhs => rw [hcs]
            rw [scanFind_digits_no_match (cs.takeWhile Char.isDigit) f c prev
              rest hc (fun x hx => List.mem_takeWhile_imp hx)]
            cases hrc : rest with
            | nil =>
              have hq' : runQualifies prev.head? run none = false := by
                rw [hrc] at hq; simpa using hq
              have hsplit' : c :: cs = run := by rw [hsplit, hrc, List.append_nil]
              have hcons : numberLeaksAux prev.head? [] run
                  = numberLeaksAux prev.head? run.reverse [] := by
                conv_lhs => rw [show run = run ++ [] from by simp]
                rw [numberLeaksAux_consume run prev.head? [] [] hrunall, List.append_nil]
              rw [scanFind_nil, hsplit', hcons, numberLeaksAux_nil,
                List.reverse_reverse, if_neg (by simp [hq'])]
            | cons r rs =>
              have hq' : runQualifies prev.head? run (some r) = false := by
                rw [hrc] at hq; simpa using hq
              have hrd : r.isDigit = false := by
                apply dropWhile_head_false (p := Char.isDigit) (l := c :: cs)
                rw [← hrest, hrc]
              have hihead : ∃ d₀,
                  ((cs.takeWhile Char.isDigit).reverse ++ (c :: prev)).head? = some d₀
                  ∧ d₀.isDigit = true := by
                cases htw : cs.takeWhile Char.isDigit with
                | nil => exact ⟨c, by simp, hc⟩
                | cons t ts =>
                  have hne : (cs.takeWhile Char.isDigit).reverse ≠ [] := by
                    rw [htw]; simp
                  obtain ⟨x, hx⟩ : ∃ x, (cs.takeWhile Char.isDigit).getLast? = some x := by
                    cases hgl : (cs.takeWhile Char.isDigit).getLast? with
                    | none =>
                      exact absurd (List.getLast?_eq_none_iff.mp hgl) (by rw [htw]; simp)
                    | some x => exact ⟨x, rfl⟩
                  refine ⟨x, ?_, List.mem_takeWhile_imp (List.mem_of_mem_getLast? hx)⟩
                  rw [← htw, List.head?_append_of_ne_nil _ hne, List.head?_reverse]
                  exact hx
              obtain ⟨d₀, hd₀, hd₀dig⟩ := hihead
              have hfb : (r :: rs).length ≤ f - (cs.takeWhile Char.isDigit).length := by
                have h1 : run.length = (cs.takeWhile Char.isDigit).length + 1 := by
                  rw [hruncons]; simp
                have h2 : rest.length = (r :: rs).length := by rw [hrc]
                simp only [List.length_cons] at h2 ⊢
                omega
              have hsplit' : c :: cs = run ++ r :: rs := by rw [hsplit, hrc]
              rw [ih (f - (cs.takeWhile Char.isDigit).length) (by omega) (r :: rs)
                  ((cs.takeWhile Char.isDigit).reverse ++ (c :: prev)) hfb, hd₀,
                numberLeaksAux_nondigit_cons hrd, hsplit',
                numberLeaksAux_consume run prev.head? [] (r :: rs) hrunall,
                List.append_nil, numberLeaksAux_emit hrd, List.reverse_reverse,
                if_neg (by simp [hq']), List.nil_append]
        · have hrd : c.isDigit = false := by simpa using hc
          rw [scanFind, matchSeq_number_nondigit rfl hrd]
          have hcl : cs.length ≤ f := by simp only [List.length_cons] at hs; omega
          rw [ih f (by omega) cs (c :: prev) hcl, numberLeaksAux_nondigit_cons hrd]
          rfl

/-- `re.findall` of the number pattern is the run characterization. -/
theorem findAll_number_eq (s : List Char) :
    findAll numberAuditAtoms s = numberLeaks s :=
  scanFind_number_eq s.length s [] (Nat.le_refl _)

/-! ## The masker's output has every digit guarded by a star -/

/-- Whether a digit may legally appear right after this character: after a
digit (mid-run) or after a `*` (the kept half of a masked run). -/
def digitOkAfter : Option Char → Bool
  | some p => p.isDigit || decide (p = '*')
  | none => false

/-- Every digit of the text is immediately preceded by a digit or a `*`
(`prev` is the character just before the text). -/
def starGuarded : Option Char → List Char → Bool
  | _, [] => true
  | prev, c :: cs =>
    (if c.isDigit then digitOkAfter prev else true) && starGuarded (some c) cs

theorem starGuarded_cons (prev : Option Char) (c : Char) (cs : List Char) :
    starGuarded prev (c :: cs)
      = ((if c.isDigit then digitOkAfter prev else true)
          && starGuarded (some c) cs) := rfl

theorem getLast?_cons_eq_or {x : Char} {xs : List Char} :
    (x :: xs).getLast? = xs.getLast?.or (some x) := by
  cases xs with
  | nil => rfl
  | cons y ys =>
    rw [List.getLast?_cons_cons]
    cases hgl : (y :: ys).getLast? with
    | none => exact absurd (List.getLast?_eq_none_iff.mp hgl) (by simp)
    | some z => rfl

theorem starGuarded_append : ∀ (a b : List Char) (prev : Option Char),
    starGuarded prev (a ++ b)
      = (starGuarded prev a && starGuarded (a.getLast?.or prev) b) := by
  intro a
  induction a with
  | nil => intro b prev; simp [starGuarded]
  | cons x xs ih =>
    intro b prev
    show starGuarded prev (x :: (xs ++ b)) = _
    rw [starGuarded_cons, ih b (some x), starGuarded_cons, getLast?_cons_eq_or]
    cases hgl : xs.getLast? with
    | none => simp [Bool.and_assoc]
    | some z => simp [Bool.and_assoc]

theorem starGuarded_of_no_digit {l : List Char} (h : ∀ c ∈ l, c.isDigit = false) :
    ∀ prev, starGuarded prev l = true := by
  induction l with
  | nil => intro _; rfl
  | cons x xs ih =>
    intro prev
    rw [starGuarded_cons, if_neg (by simp [h x (List.mem_cons_self x xs)]),
      Bool.true_and]
    exact ih (fun c hc => h c (List.mem_cons_of_mem x hc)) (some x)

theorem starGuarded_digits_after_star : ∀ (ds : List Char),
    (∀ c ∈ ds, c.isDigit = true) →
    ∀ (p : Char), (p.isDigit = true ∨ p = '*') →
    starGuarded (some p) ds = true := by
  intro ds
  induction ds with
  | nil => intro _ _ _; rfl
  | cons d dt ih =>
    intro hds p hp
    rw [starGuarded_cons, if_pos (hds d (List.mem_cons_self d dt))]
    have h1 : digitOkAfter (some p) = true := by
      unfold digitOkAfter
      rcases hp with h | h
      · simp [h]
      · simp [h]
    rw [h1, Bool.true_and]
    exact ih (fun c hc => hds c (List.mem_cons_of_mem d hc)) d
      (Or.inl (hds d (List.mem_cons_self d dt)))

theorem starGuarded_mask_number_group {r : List Char}
    (hr : ∀ c ∈ r, c.isDigit = true) (prev : Option Char) :
    starGuarded prev (mask_number_group r) = true := by
  by_cases hr0 : r = []
  · subst hr0; rfl
  · have hk : 1 ≤ ceilHalf r.length := by
      have : 1 ≤ r.length := List.length_pos.mpr hr0
      unfold ceilHalf
      omega
    unfold mask_number_group
    rw [starGuarded_append]
    have hstars : starGuarded prev (List.replicate (ceilHalf r.length) '*') = true :=
      starGuarded_of_no_digit
        (fun c hc => by rw [List.eq_of_mem_replicate hc]; rfl) prev
    have hlast : (List.replicate (ceilHalf r.length) '*').getLast? = some '*' := by
      cases hrep : List.replicate (ceilHalf r.length) '*' with
      | nil =>
        have := congrArg List.length hrep
        simp only [List.length_replicate, List.length_nil] at this
        omega
      | cons y ys =>
        obtain ⟨z, hz⟩ : ∃ z, (y :: ys).getLast? = some z := by
          cases hgl : (y :: ys).getLast? with
          | none => exact absurd (List.getLast?_eq_none_iff.mp hgl) (by simp)
          | some z => exact ⟨z, rfl⟩
        rw [hz]
        have : z ∈ List.replicate (ceilHalf r.length) '*' := by
          rw [hrep]
          exact List.mem_of_mem_getLast? hz
        rw [List.eq_of_mem_replicate this]
    rw [hstars, hlast, Bool.true_and]
    exact starGuarded_digits_after_star _
      (fun c hc => hr c (List.drop_subset _ _ hc)) '*' (Or.inr rfl)

theorem starGuarded_maskDigitsAux : ∀ (t runRev : List Char),
    (∀ c ∈ runRev, c.isDigit = true) →
    ∀ prev, starGuarded prev (maskDigitsAux runRev t) = true := by
  intro t
  induction t with
  | nil =>
    intro runRev hrr prev
    show starGuarded prev (mask_number_group runRev.reverse) = true
    exact starGuarded_mask_number_group
      (fun c hc => hrr c (List.mem_reverse.mp hc)) prev
  | cons c cs ih =>
    intro runRev hrr prev
    by_cases hc : c.isDigit
    · have heq : maskDigitsAux runRev (c :: cs) = maskDigitsAux (c :: runRev) cs := by
        rw [maskDigitsAux, if_pos hc]
      rw [heq]
      exact ih (c :: runRev)
        (fun x hx => by
          rcases List.mem_cons.mp hx with rfl | h
          · exact hc
          · exact hrr x h) prev
    · have heq : maskDigitsAux runRev (c :: cs)
          = mask_number_group runRev.reverse ++ c :: maskDigitsAux [] cs := by
        rw [maskDigitsAux, if_neg hc]
      rw [heq, starGuarded_append,
        starGuarded_mask_number_group (fun x hx => hrr x (List.mem_reverse.mp hx)) prev,
        Bool.true_and, starGuarded_cons,
        if_neg (by simp [(by simpa using hc : c.isDigit = false)]), Bool.true_and]
      exact ih [] (by intro x hx; exact absurd hx (List.not_mem_nil x)) (some c)

theorem starGuarded_maskDigits (t : List Char) (prev : Option Char) :
    starGuarded prev (maskDigits t) = true :=
  starGuarded_maskDigitsAux t [] (fun x hx => absurd hx (List.not_mem_nil x)) prev

/-- Bad previous character: a word character or a `*` (either kills the
number pattern at the run's start). -/
def prevBad : Option Char → Bool
  | none => false
  | some p => isWordChar p || decide (p = '*')

theorem runQualifies_false_of_prevBad {p : Option Char} {run : List Char}
    {x : Option Char} (h : prevBad p = true) : runQualifies p run x = false := by
  cases p with
  | none => exact absurd h (by simp [prevBad])
  | some q =>
    simp only [prevBad, Bool.or_eq_true, decide_eq_true_eq] at h
    simp only [runQualifies, prevOk]
    rcases h with h | h
    · simp [h]
    · simp [h]

theorem starGuarded_no_leaks : ∀ (s : List Char) (prev : Option Char)
    (runRev : List Char), (runRev ≠ [] → prevBad prev = true) →
    starGuarded (match runRev with | r :: _ => some r | [] => prev) s = true →
    numberLeaksAux prev runRev s = [] := by
  intro s
  induction s with
  | nil =>
    intro prev runRev hbad _
    rw [numberLeaksAux_nil]
    cases hr : runRev with
    | nil => simp [runQualifies]
    | cons r rt =>
      rw [if_neg]
      rw [runQualifies_false_of_prevBad (hbad (by rw [hr]; simp))]
      simp
  | cons c cs ih =>
    intro prev runRev hbad hsg
    by_cases hc : c.isDigit
    · rw [numberLeaksAux, if_pos hc]
      rw [starGuarded_cons, if_pos hc] at hsg
      simp only [Bool.and_eq_true] at hsg
      apply ih prev (c :: runRev) _ (by simpa using hsg.2)
      intro _
      cases hr : runRev with
      | nil =>
        rw [hr] at hsg
        have hsg1 : digitOkAfter prev = true := hsg.1
        cases prev with
        | none => exact absurd hsg1 (by decide)
        | some p =>
          simp only [digitOkAfter, Bool.or_eq_true, decide_eq_true_eq] at hsg1
          simp only [prevBad, Bool.or_eq_true, decide_eq_true_eq]
          rcases hsg1 with h | h
          · exact Or.inl (isWordChar_of_isDigit h)
          · exact Or.inr h
      | cons r rt =>
        exact hbad (by rw [hr]; simp)
    · have hcf : c.isDigit = false := by simpa using hc
      rw [numberLeaksAux, if_neg (by simp [hcf])]
      rw [starGuarded_cons, if_neg (by simp [hcf]), Bool.true_and] at hsg
      have hrec := ih (some c) [] (by intro h; exact absurd rfl h) (by simpa using hsg)
      rw [hrec, List.append_nil]
      cases hr : runRev with
      | nil => simp [runQualifies]
      | cons r rt =>
        rw [if_neg]
        rw [runQualifies_false_of_prevBad (hbad (by rw [hr]; simp))]
        simp

theorem numberLeaks_maskDigits (t : List Char) : numberLeaks (maskDigits t) = [] :=
  starGuarded_no_leaks (maskDigits t) none []
    (fun h => absurd rfl h) (starGuarded_maskDigits t none)

/-! ## C6 and C10 -/

/-- The number-leak rule as the claim words it: every maximal digit run of
length at least 7 that is not immediately preceded by `*` — with no
word-boundary requirement. Stated only for comparison with the code's scan. -/
def claimedRunQualifies (p : Option Char) (run : List Char) : Bool :=
  decide (7 ≤ run.length)
    && (match p with
        | none => true
        | some q => decide (¬ q = '*'))

/-- The claim-worded number leaks of a text (compare `numberLeaks`). -/
def specNumberLeaksAux : Option Char → List Char → List Char → List (List Char)
  | prev, runRev, [] =>
    if claimedRunQualifies prev runRev.reverse then [runRev.reverse] else []
  | prev, runRev, c :: cs =>
    if c.isDigit then specNumberLeaksAux prev (c :: runRev) cs
    else
      (if claimedRunQualifies prev runRev.reverse then [runRev.reverse] else [])
        ++ specNumberLeaksAux (some c) [] cs

/-- The claim-worded number leaks of a text. -/
def specNumberLeaks (s : List Char) : List (List Char) :=
  specNumberLeaksAux none [] s

/-- C6 counterexample: on content `a1234567` with file identifier `x`, the
audit reports 0 leaks — the run is preceded by the letter `a`, so the
pattern's `\b` fails — while the claim's rule (length ≥ 7, not preceded by
`*`, not in the identifier) counts 1. -/
theorem C6_counterexample :
    (check_html_leakage_count (some "a1234567") "x").1
      ≠ (findAll emailAuditAtoms ("a1234567" : String).data).length
        + ((specNumberLeaks ("a1234567" : String).data).filter
            (fun n => !isSubstring n ("x" : String).data)).length := by
  decide

/-- C6: `check_html_leakage_count` on readable content counts exactly the
email-pattern matches plus the maximal digit runs of length ≥ 7 that lie on
word boundaries, are not preceded by `*` and are not substrings of the file
identifier, and returns the offending substrings; on an unreadable artifact
it never raises and reports exactly one leak with a diagnostic detail. -/
theorem C6_audit_characterization (content fileName : String) :
    check_html_leakage_count (some content) fileName
      = ((findAll emailAuditAtoms content.data).length
          + ((numberLeaks content.data).filter
              (fun n => !isSubstring n fileName.data)).length,
         ((findAll emailAuditAtoms content.data)
           ++ (numberLeaks content.data).filter
              (fun n => !isSubstring n fileName.data)).map (fun l => (⟨l⟩ : String)))
    ∧ check_html_leakage_count none fileName = (1, ["Error reading file"]) := by
  refine ⟨?_, rfl⟩
  simp only [check_html_leakage_count]
  rw [findAll_number_eq]

/-- C10 counterexample: `mask_cell_value "a@b.cc7" = "a@b.cc*"` (the digit
mask turns `7` into `*`, creating a fresh word boundary), and the auditor's
email pattern then matches `a@b.cc` — the audit of a masked output is not
always 0. -/
theorem C10_counterexample :
    (check_html_leakage_count (some (mask_cell_value "a@b.cc7")) "file").1 ≠ 0 := by
  decide

/-- C10: the digit half of the composition does hold — the auditor's number
scan finds nothing in any masked output (every digit the masker keeps sits
right after a `*` or another digit), so the audit count of a masked output
is exactly its email-pattern match count. -/
theorem C10_masked_output_no_number_leaks (s fileName : String) :
    findAll numberAuditAtoms (mask_cell_value s).data = []
    ∧ (check_html_leakage_count (some (mask_cell_value s)) fileName).1
        = (findAll emailAuditAtoms (mask_cell_value s).data).length := by
  have h1 : findAll numberAuditAtoms (mask_cell_value s).data = [] := by
    cases s with
    | mk sl =>
      rw [mask_cell_value_def]
      by_cases hg : (sl.isEmpty || decide (lowerL (trimL sl) = "nan".data)) = true
      · rw [if_pos hg, show ("" : String).data = [] from rfl]
        rfl
      · rw [if_neg hg]
        generalize hgen : maskPasses sl = t
        rw [show ((⟨t⟩ : String)).data = t from rfl, ← hgen]
        unfold maskPasses
        rw [subAll_digit, findAll_number_eq, numberLeaks_maskDigits]
  refine ⟨h1, ?_⟩
  simp only [check_html_leakage_count]
  rw [h1]
  simp

/-! ## The Decision Gate (`process_excel_file`, steps 2–3)

The per-attempt artifact texts are `Option String`s (`none` = unreadable);
the gate sums the audit counts, retries the whole generation once when the
total exceeds the tolerance, and gives up when the retried total still
does. -/

/-- The summed leak count of one generation's artifacts. -/
def audit_total (contents : List (Option String)) (fileName : String) : Nat :=
  (contents.map (fun c => (check_html_leakage_count c fileName).1)).sum

/-- Where the gate ends up: image creation (with whether a retry happened),
or the security-check failure return. -/
inductive GateOutcome where
  | accepted (retried : Bool)
  | quarantined
deriving DecidableEq

/-- The decision logic of `process_excel_file` lines 451–484: `first` are the
first generation's artifacts, `second` the regeneration's (only consulted on
retry — regeneration is rerun from the same sheets). -/
def decision_gate (first second : List (Option String)) (fileName : String) :
    GateOutcome :=
  if audit_total first fileName > MAX_LEAK_TOLERANCE then
    (if audit_total second fileName > MAX_LEAK_TOLERANCE then .quarantined
     else .accepted true)
  else .accepted false

/-- C1: the gate accepts without retry exactly when the first cumulative
total is at or below `MAX_LEAK_TOLERANCE` (0 included), retries exactly once
when it is strictly above, accepts after the retry exactly when the re-audit
total is within tolerance, and never accepts a file whose final audited
total exceeds the tolerance. -/
theorem C1_decision_gate (first second : List (Option String)) (fileName : String) :
    (decision_gate first second fileName = .accepted false
      ↔ audit_total first fileName ≤ MAX_LEAK_TOLERANCE)
    ∧ (decision_gate first second fileName = .accepted true
      ↔ (MAX_LEAK_TOLERANCE < audit_total first fileName
          ∧ audit_total second fileName ≤ MAX_LEAK_TOLERANCE))
    ∧ (decision_gate first second fileName = .quarantined
      ↔ (MAX_LEAK_TOLERANCE < audit_total first fileName
          ∧ MAX_LEAK_TOLERANCE < audit_total second fileName))
    ∧ (∀ b, decision_gate first second fileName = .accepted b →
        (if b then audit_total second fileName else audit_total first fileName)
          ≤ MAX_LEAK_TOLERANCE) := by
  unfold decision_gate
  split_ifs with h1 h2
  · refine ⟨⟨fun h => ?_, fun h => ?_⟩, ⟨fun h => ?_, fun h => ?_⟩,
      ⟨fun _ => ⟨h1, h2⟩, fun _ => rfl⟩, fun b hb => ?_⟩
    · exact absurd h (by simp)
    · omega
    · exact absurd h (by simp)
    · omega
    · exact absurd hb (by simp)
  · refine ⟨⟨fun h => ?_, fun h => ?_⟩, ⟨fun _ => ⟨h1, by omega⟩, fun _ => rfl⟩,
      ⟨fun h => ?_, fun h => ?_⟩, fun b hb => ?_⟩
    · exact absurd h (by simp)
    · omega
    · exact absurd h (by simp)
    · omega
    · have : b = true := by
        have := hb
        simp only [GateOutcome.accepted.injEq] at this
        exact this.symm
      subst this
      rw [if_pos rfl]
      omega
  · refine ⟨⟨fun _ => by omega, fun _ => rfl⟩, ⟨fun h => ?_, fun h => ?_⟩,
      ⟨fun h => ?_, fun h => ?_⟩, fun b hb => ?_⟩
    · simp only [GateOutcome.accepted.injEq] at h
      exact absurd h.symm (by simp)
    · omega
    · exact absurd h (by simp)
    · omega
    · have : b = false := by
        have := hb
        simp only [GateOutcome.accepted.injEq] at this
        exact this.symm
      subst this
      rw [if_neg (by simp)]
      omega

/-! ## The quarantine deposit (`process_excel_file_workflow`, attached-asset
variant) -/

/-- A source spreadsheet: its file name and (an identifier standing for) its
contents. -/
structure QFile where
  name : String
  content : Nat
deriving DecidableEq

/-- The deposit into `data_check`: `shutil.move` when the name is free;
when a same-named file already sits there the code prints a warning and
`os.remove`s the original. Result: the new store and whether the duplicate
warning fired (the original is added to the store only in the first case). -/
def deposit_to_quarantine (store : List QFile) (f : QFile) : List QFile × Bool :=
  if store.any (fun g => g.name = f.name) then (store, true)
  else (f :: store, false)

/-- The attached-asset workflow's ending: quarantine (with the store after
the deposit and the warning flag) or completion with the created images. -/
inductive WorkflowResult where
  | quarantined (store : List QFile) (warned : Bool)
  | completed (images : Nat)
deriving DecidableEq

/-- `process_excel_file_workflow` steps 2–4: gate, then either deposit the
source into quarantine and publish nothing, or create one image per page. -/
def process_excel_file_workflow (first second : List (Option String))
    (fileName : String) (store : List QFile) (src : QFile) (numPages : Nat) :
    WorkflowResult :=
  match decision_gate first second fileName with
  | .quarantined =>
    let d := deposit_to_quarantine store src
    .quarantined d.1 d.2
  | .accepted _ => .completed numPages

/-- Images a workflow result publishes. -/
def imagesPublished : WorkflowResult → Nat
  | .quarantined _ _ => 0
  | .completed n => n

/-- C5 counterexample: depositing a file whose name already exists in the
quarantine store fires the duplicate warning and the original file is gone —
it is in neither the store nor anywhere else (`os.remove`), contradicting
"never destroys the original". -/
theorem C5_counterexample :
    (deposit_to_quarantine [⟨"a.xlsx", 1⟩] ⟨"a.xlsx", 2⟩).2 = true
    ∧ (⟨"a.xlsx", 2⟩ : QFile) ∉ (deposit_to_quarantine [⟨"a.xlsx", 1⟩] ⟨"a.xlsx", 2⟩).1 := by
  constructor
  · rfl
  · intro h
    have : (⟨"a.xlsx", 2⟩ : QFile) ∈ [(⟨"a.xlsx", 1⟩ : QFile)] := h
    simp at this

/-- C5: when the post-retry total still exceeds the tolerance the workflow
quarantines — zero images are published and the source is deposited: a fresh
name is moved into the store with no warning; a duplicate name is a warning,
not an error, but the original is deleted (it is not added to the store)
rather than preserved. -/
theorem C5_quarantine_behavior (first second : List (Option String))
    (fileName : String) (store : List QFile) (src : QFile) (numPages : Nat)
    (h1 : MAX_LEAK_TOLERANCE < audit_total first fileName)
    (h2 : MAX_LEAK_TOLERANCE < audit_total second fileName) :
    process_excel_file_workflow first second fileName store src numPages
      = .quarantined (deposit_to_quarantine store src).1
          (deposit_to_quarantine store src).2
    ∧ imagesPublished
        (process_excel_file_workflow first second fileName store src numPages) = 0
    ∧ (store.any (fun g => g.name = src.name) = false →
        deposit_to_quarantine store src = (src :: store, false))
    ∧ (store.any (fun g => g.name = src.name) = true →
        deposit_to_quarantine store src = (store, true)) := by
  have hgate : decision_gate first second fileName = .quarantined := by
    unfold decision_gate
    rw [if_pos h1, if_pos h2]
  refine ⟨?_, ?_, ?_, ?_⟩
  · unfold process_excel_file_workflow
    rw [hgate]
  · unfold process_excel_file_workflow
    rw [hgate]
    rfl
  · intro h
    unfold deposit_to_quarantine
    rw [if_neg (by simp [h])]
  · intro h
    unfold deposit_to_quarantine
    rw [if_pos h]

/-- C5 witness: the theorem applied to a concrete over-tolerance run. -/
theorem C5_quarantine_behavior_witness :
    process_excel_file_workflow [some "a1@b.cc c2@d.ee e3@f.gg x4@y.zz q5@r.ss w6@t.uu"] [some "a1@b.cc c2@d.ee e3@f.gg x4@y.zz q5@r.ss w6@t.uu"]
        "f" [⟨"g.xlsx", 1⟩] ⟨"f.xlsx", 2⟩ 7
      = .quarantined
          (deposit_to_quarantine [⟨"g.xlsx", 1⟩] ⟨"f.xlsx", 2⟩).1
          (deposit_to_quarantine [⟨"g.xlsx", 1⟩] ⟨"f.xlsx", 2⟩).2
    ∧ imagesPublished
        (process_excel_file_workflow [some "a1@b.cc c2@d.ee e3@f.gg x4@y.zz q5@r.ss w6@t.uu"] [some "a1@b.cc c2@d.ee e3@f.gg x4@y.zz q5@r.ss w6@t.uu"]
          "f" [⟨"g.xlsx", 1⟩] ⟨"f.xlsx", 2⟩ 7) = 0
    ∧ ([(⟨"g.xlsx", 1⟩ : QFile)].any (fun g => g.name = "f.xlsx") = false →
        deposit_to_quarantine [⟨"g.xlsx", 1⟩] ⟨"f.xlsx", 2⟩
          = (⟨"f.xlsx", 2⟩ :: [⟨"g.xlsx", 1⟩], false))
    ∧ ([(⟨"g.xlsx", 1⟩ : QFile)].any (fun g => g.name = "f.xlsx") = true →
        deposit_to_quarantine [⟨"g.xlsx", 1⟩] ⟨"f.xlsx", 2⟩
          = ([⟨"g.xlsx", 1⟩], true)) :=
  C5_quarantine_behavior _ _ _ _ _ _ (by decide) (by decide)

/-! ## Column widths (`get_column_widths`)

A page chunk is modelled as a list of rows with a list of column labels.
The original columns (read with `header=None`) carry integer labels
`0..k-1`; the placeholder columns added by the pagination loop carry the
string labels `ph_j`.  `avg_lengths` takes the mean trimmed-string length
per column (exact rational here; `AVG_CHAR_WIDTH = 8.5` never enters this
function); `sort_values(ascending=False)` is pandas `nargsort`: it reverses
the values, argsorts, indexes, and reverses again, so for the ≤ 16 element
series (numpy falls back to a stable insertion sort below its quicksort
threshold) ties keep their original order and the net order is mean
descending then position ascending.  `i in top_3_indices` compares the loop
integer `i` against the labels of the three best columns. -/

/-- A column label of the padded page chunk: a position integer or a
placeholder name. -/
abbrev ColLabel := Nat ⊕ String

/-- A page chunk as `get_column_widths` sees it. -/
structure DFrame where
  labels : List ColLabel
  rows : List (List String)
deriving DecidableEq

/-- The mean trimmed-text length of column `j` across the chunk's rows. -/
def colMean (rows : List (List String)) (j : Nat) : ℚ :=
  ((rows.map (fun r => ((trimL (r.getD j "").data).length : ℚ))).sum)
    / (rows.length : ℚ)

/-- Position `i` sorts no later than position `j`: strictly larger mean, or
equal mean and not a later original position (the stable descending order
of `sort_values(ascending=False)` on ≤ 16 elements). -/
def rankRel (rows : List (List String)) (i j : Nat) : Prop :=
  colMean rows j < colMean rows i ∨ (colMean rows i = colMean rows j ∧ i ≤ j)

instance (rows : List (List String)) : DecidableRel (rankRel rows) := fun i j => by
  unfold rankRel
  exact inferInstance

instance (rows : List (List String)) : IsTotal Nat (rankRel rows) := by
  constructor
  intro i j
  unfold rankRel
  rcases lt_trichotomy (colMean rows i) (colMean rows j) with h | h | h
  · exact Or.inr (Or.inl h)
  · rcases Nat.le_total i j with hij | hij
    · exact Or.inl (Or.inr ⟨h, hij⟩)
    · exact Or.inr (Or.inr ⟨h.symm, hij⟩)
  · exact Or.inl (Or.inl h)

instance (rows : List (List String)) : IsTrans Nat (rankRel rows) := by
  constructor
  intro a b c hab hbc
  unfold rankRel at hab hbc ⊢
  rcases hab with h1 | ⟨h1, h1le⟩
  · rcases hbc with h2 | ⟨h2, _⟩
    · exact Or.inl (h2.trans h1)
    · exact Or.inl (h2 ▸ h1)
  · rcases hbc with h2 | ⟨h2, h2le⟩
    · exact Or.inl (h1 ▸ h2)
    · exact Or.inr ⟨h1.trans h2, h1le.trans h2le⟩

/-- The positions of the three best-ranked columns, in rank order
(`sort_values(ascending=False).head(3)`). -/
def top3 (rows : List (List String)) (n : Nat) : List Nat :=
  ((List.range n).insertionSort (rankRel rows)).take 3

/-- `get_column_widths(df_chunk)`. -/
def get_column_widths (df : DFrame) : List Nat :=
  if df.rows.isEmpty then []
  else
    INDEX_COL_WIDTH :: (List.range df.labels.length).map
      (fun i =>
        if (top3 df.rows df.labels.length).any
            (fun p => df.labels.getD p (Sum.inr "") = Sum.inl i)
        then TOP_3_COL_WIDTH else OTHER_COL_WIDTH)

/-- The labels of the padded chunk: `temp_df` keeps the `k` original integer
labels and pads with `ph_{j}` string labels up to `n` columns. -/
def pipelineLabels (k n : Nat) : List ColLabel :=
  (List.range n).map
    (fun p => if p < k then Sum.inl p else Sum.inr ("ph_" ++ toString p))

/-- Position `j` is ranked strictly better than position `i`: larger mean,
or equal mean and earlier original position. -/
def strictBetter (rows : List (List String)) (j i : Nat) : Prop :=
  colMean rows i < colMean rows j ∨ (colMean rows j = colMean rows i ∧ j < i)

instance (rows : List (List String)) : DecidableRel (strictBetter rows) := fun j i => by
  unfold strictBetter
  exact inferInstance

/-- How many of the `n` positions are ranked strictly better than `i`. -/
def rankCount (rows : List (List String)) (n i : Nat) : Nat :=
  (List.range n).countP (fun j => decide (strictBetter rows j i))

/-! ## Cell classes and page assembly (`get_cell_class`,
`generate_html_for_sheet`) -/

/-- `get_cell_class(text, col_width)`: `AVG_CHAR_WIDTH = 8.5 = 17/2`, so
`math.ceil(len * 8.5 / text_space)` is `⌈17·len / (2·text_space)⌉`, written
with Nat division. -/
def get_cell_class (text : String) (col_width : Nat) : String :=
  if col_width ≤ CELL_PADDING_X then "no-wrap-text"
  else
    if ((17 * (trimL text.data).length + (2 * (col_width - CELL_PADDING_X) - 1))
          / (2 * (col_width - CELL_PADDING_X))) * LINE_HEIGHT_ESTIMATE
        ≤ ROW_HEIGHT
    then "wrap-text" else "no-wrap-text"

/-- One rendered cell: `{"value": …, "class": …}`. -/
structure PageCell where
  value : String
  cls : String
deriving DecidableEq

/-- One rendered row: `excel_row_num` (`none` is the blank marker `" "`)
and the cells. -/
structure PageRow where
  excel_row_num : Option Nat
  cells : List PageCell
deriving DecidableEq

/-- One rendered page: `column_widths` and `page_data`. -/
structure Page where
  column_widths : List Nat
  page_data : List PageRow
deriving DecidableEq

/-- The padding cell `{"value": "", "class": "wrap-text"}`. -/
def blankCell : PageCell := PageCell.mk "" "wrap-text"

/-- The padding row: blank marker and `DATA_COLS_TO_KEEP` padding cells. -/
def blankRow : PageRow :=
  PageRow.mk none (List.replicate DATA_COLS_TO_KEEP blankCell)

/-- `mask_cell_value('' if str(cell).strip().lower() == 'nan' else cell)`. -/
def maskIfNan (cell : String) : String :=
  mask_cell_value (if lowerL (trimL cell.data) = "nan".data then "" else cell)

/-- The cells of one real row: mask each cell, class it against its column's
width (`col_widths[c_idx+1]`), then pad to `DATA_COLS_TO_KEEP`. -/
def mkCells (widths : List Nat) (row : List String) : List PageCell :=
  (row.enum.map (fun p =>
    PageCell.mk (maskIfNan p.2)
      (get_cell_class (maskIfNan p.2) (widths.getD (p.1 + 1) 0))))
  ++ List.replicate (DATA_COLS_TO_KEEP - row.length) blankCell

/-- The widths of one chunk's page: `temp_df` pads the chunk's rows with
`''` columns up to `DATA_COLS_TO_KEEP` before `get_column_widths`. -/
def pageWidths (k : Nat) (chunk : List (Nat × List String)) : List Nat :=
  get_column_widths
    (DFrame.mk (pipelineLabels k DATA_COLS_TO_KEEP)
      (chunk.map (fun p => p.2 ++ List.replicate (DATA_COLS_TO_KEEP - p.2.length) "")))

/-- One page from a chunk of (original 0-based row index, row) pairs: real
rows carry `r_idx + 1`, then the page is padded to `ROWS_PER_PAGE` rows. -/
def mkPage (k : Nat) (chunk : List (Nat × List String)) : Page :=
  Page.mk (pageWidths k chunk)
    ((chunk.map (fun p =>
        PageRow.mk (some (p.1 + 1)) (mkCells (pageWidths k chunk) p.2)))
      ++ List.replicate (ROWS_PER_PAGE - chunk.length) blankRow)

/-- The blank-row filter of line 239: keep a row when some cell strips to a
non-empty string other than case-insensitive `nan`. -/
def rowKept (row : List String) : Bool :=
  row.any (fun cell =>
    !decide (trimL cell.data = [])
    && !decide (lowerL (trimL cell.data) = "nan".data))

/-- `df.iloc[:, :DATA_COLS_TO_KEEP]`, applied only when the sheet has more
than `DATA_COLS_TO_KEEP` columns. -/
def truncateCols (ncols : Nat) (rows : List (List String)) :
    List (List String) :=
  if DATA_COLS_TO_KEEP < ncols then rows.map (fun r => r.take DATA_COLS_TO_KEEP)
  else rows

/-- The surviving rows, each with its original 0-based position (the pandas
index is not reset by the filter). -/
def keptRows (ncols : Nat) (rows : List (List String)) :
    List (Nat × List String) :=
  (truncateCols ncols rows).enum.filter (fun p => rowKept p.2)

/-- `l` split into consecutive chunks of `n` (fuel-indexed so the kernel can
evaluate it). -/
def chunksAux {α : Type} (n : Nat) : Nat → List α → List (List α)
  | _, [] => []
  | 0, a :: l => [a :: l]
  | fuel+1, a :: l => (a :: l).take n :: chunksAux n fuel ((a :: l).drop n)

/-- `df.iloc[i*n : (i+1)*n]` for `i < ceil(len(df)/n)`. -/
def chunksOf {α : Type} (n : Nat) (l : List α) : List (List α) :=
  chunksAux n l.length l

/-- `generate_html_for_sheet` as its list of rendered pages, for a sheet
with `ncols` columns. -/
def generate_html_for_sheet (ncols : Nat) (rows : List (List String)) :
    List Page :=
  (chunksOf ROWS_PER_PAGE (keptRows ncols rows)).map
    (mkPage (min ncols DATA_COLS_TO_KEEP))

/-- The value row a real row renders to: each cell masked, padded to
`DATA_COLS_TO_KEEP` with `""`. -/
def maskedRowValues (row : List String) : List String :=
  row.map maskIfNan ++ List.replicate (DATA_COLS_TO_KEEP - row.length) ""

/-- Lines 436–449 of `process_excel_file`: generate every sheet's pages;
when no page at all was produced return the no-valid-data error. -/
def process_excel_file_step1 (sheets : List (Nat × List (List String))) :
    Except String (List Page) :=
  if ((sheets.map (fun sh => generate_html_for_sheet sh.1 sh.2)).flatten).isEmpty
  then Except.error "No valid data found in Excel file"
  else Except.ok ((sheets.map (fun sh => generate_html_for_sheet sh.1 sh.2)).flatten)

/-! ## Chunking lemmas -/

theorem chunksAux_flatten {α : Type} (n : Nat) (hn : 0 < n) :
    ∀ (fuel : Nat) (l : List α), l.length ≤ fuel →
      (chunksAux n fuel l).flatten = l := by
  intro fuel
  induction fuel with
  | zero =>
    intro l hl
    cases l with
    | nil => rfl
    | cons a t => simp at hl
  | succ fuel ih =>
    intro l hl
    cases l with
    | nil => rfl
    | cons a t =>
      simp only [chunksAux, List.flatten_cons]
      have hd : ((a :: t).drop n).length ≤ fuel := by
        rw [List.length_drop]
        simp only [List.length_cons] at hl ⊢
        omega
      rw [ih _ hd]
      exact List.take_append_drop n (a :: t)

theorem chunksAux_length {α : Type} (n : Nat) (hn : 0 < n) :
    ∀ (fuel : Nat) (l : List α), l.length ≤ fuel →
      (chunksAux n fuel l).length = (l.length + (n - 1)) / n := by
  intro fuel
  induction fuel with
  | zero =>
    intro l hl
    cases l with
    | nil =>
      simp only [chunksAux, List.length_nil]
      rw [Nat.div_eq_of_lt (by omega)]
    | cons a t => simp at hl
  | succ fuel ih =>
    intro l hl
    cases l with
    | nil =>
      simp only [chunksAux, List.length_nil]
      rw [Nat.div_eq_of_lt (by omega)]
    | cons a t =>
      have hd : ((a :: t).drop n).length ≤ fuel := by
        rw [List.length_drop]
        simp only [List.length_cons] at hl ⊢
        omega
      simp only [chunksAux, List.length_cons]
      rw [ih _ hd, List.length_drop]
      simp only [List.length_cons]
      rcases le_or_lt n (t.length + 1) with hle | hlt
      · have h1 : t.length + 1 - n + (n - 1) = t.length := by omega
        have h2 : t.length + 1 + (n - 1) = t.length + n := by omega
        rw [h1, h2, Nat.add_div_right _ hn]
      · have h1 : t.length + 1 - n = 0 := by omega
        have h2 : t.length + 1 + (n - 1) = t.length + n := by omega
        rw [h1, Nat.zero_add, Nat.div_eq_of_lt (by omega : n - 1 < n),
          h2, Nat.add_div_right _ hn, Nat.div_eq_of_lt (by omega : t.length < n)]

theorem chunksAux_mem {α : Type} (n : Nat) (hn : 0 < n) :
    ∀ (fuel : Nat) (l c : List α), l.length ≤ fuel → c ∈ chunksAux n fuel l →
      c.length ≤ n ∧ (∀ x ∈ c, x ∈ l) := by
  intro fuel
  induction fuel with
  | zero =>
    intro l c hl hc
    cases l with
    | nil => simp [chunksAux] at hc
    | cons a t => simp at hl
  | succ fuel ih =>
    intro l c hl hc
    cases l with
    | nil => simp [chunksAux] at hc
    | cons a t =>
      simp only [chunksAux] at hc
      rcases List.mem_cons.mp hc with rfl | hrest
      · refine ⟨?_, fun x hx => List.take_subset _ _ hx⟩
        rw [List.length_take]
        exact min_le_left _ _
      · have hd : ((a :: t).drop n).length ≤ fuel := by
          rw [List.length_drop]
          simp only [List.length_cons] at hl ⊢
          omega
        have hih := ih _ _ hd hrest
        exact ⟨hih.1, fun x hx => List.drop_subset _ _ (hih.2 x hx)⟩

/-! ## Row-rendering lemmas -/

theorem enum_map_snd_comp {β γ : Type} (l : List β) (g : β → γ) :
    l.enum.map (fun p => g p.2) = l.map g := by
  rw [show (fun p : Nat × β => g p.2) = (g ∘ Prod.snd) from rfl,
    ← List.map_map, List.enum_map_snd]

theorem mkCells_length (w : List Nat) (row : List String) :
    (mkCells w row).length = row.length + (DATA_COLS_TO_KEEP - row.length) := by
  unfold mkCells
  rw [List.length_append, List.length_map, List.enum_length,
    List.length_replicate]

theorem mkCells_map_value (w : List Nat) (row : List String) :
    (mkCells w row).map (fun c => c.value) = maskedRowValues row := by
  unfold mkCells maskedRowValues
  rw [List.map_append, List.map_map, List.map_replicate]
  congr 1
  exact enum_map_snd_comp row maskIfNan

/-! ## Ranking lemmas -/

theorem strictBetter_iff (rows : List (List String)) (j i : Nat) :
    strictBetter rows j i ↔ (rankRel rows j i ∧ j ≠ i) := by
  unfold strictBetter rankRel
  constructor
  · rintro (h | ⟨he, hlt⟩)
    · exact ⟨Or.inl h, fun hji => by rw [hji] at h; exact lt_irrefl _ h⟩
    · exact ⟨Or.inr ⟨he, hlt.le⟩, Nat.ne_of_lt hlt⟩
  · rintro ⟨h | ⟨he, hle⟩, hne⟩
    · exact Or.inl h
    · exact Or.inr ⟨he, lt_of_le_of_ne hle hne⟩

theorem rankRel_antisymm (rows : List (List String)) (i j : Nat)
    (hij : rankRel rows i j) (hji : rankRel rows j i) : i = j := by
  unfold rankRel at hij hji
  rcases hij with h1 | ⟨h1, h1le⟩
  · rcases hji with h2 | ⟨h2, _⟩
    · exact absurd (h1.trans h2) (lt_irrefl _)
    · exact absurd (h2 ▸ h1) (lt_irrefl _)
  · rcases hji with h2 | ⟨h2, h2le⟩
    · exact absurd (h1 ▸ h2) (lt_irrefl _)
    · exact Nat.le_antisymm h1le h2le

theorem sorted_take_iff (rows : List (List String)) :
    ∀ (L : List Nat), L.Sorted (rankRel rows) → L.Nodup →
      ∀ i ∈ L, ∀ m : Nat,
        (i ∈ L.take m ↔
          L.countP (fun j => decide (strictBetter rows j i)) < m) := by
  intro L
  induction L with
  | nil =>
    intro _ _ i hi
    cases hi
  | cons h T ih =>
    intro hs hnd i hi m
    rw [List.sorted_cons] at hs
    rw [List.nodup_cons] at hnd
    rcases List.mem_cons.mp hi with rfl | hiT
    · have hc0 : (i :: T).countP (fun j => decide (strictBetter rows j i)) = 0 := by
        rw [List.countP_eq_zero]
        intro a ha
        rcases List.mem_cons.mp ha with rfl | haT
        · simp only [decide_eq_true_eq]
          intro hsb
          exact ((strictBetter_iff rows a a).mp hsb).2 rfl
        · simp only [decide_eq_true_eq]
          intro hsb
          have hba := (strictBetter_iff rows a i).mp hsb
          exact hba.2 (rankRel_antisymm rows a i hba.1 (hs.1 a haT))
      rw [hc0]
      cases m with
      | zero => simp
      | succ m' => simp [List.take_succ_cons]
    · have hneq : h ≠ i := fun he => hnd.1 (he ▸ hiT)
      have hpos : (fun j => decide (strictBetter rows j i)) h = true := by
        simp only [decide_eq_true_eq]
        exact (strictBetter_iff rows h i).mpr ⟨hs.1 i hiT, hneq⟩
      rw [List.countP_cons_of_pos (fun j => decide (strictBetter rows j i)) T hpos]
      cases m with
      | zero => simp
      | succ m' =>
        rw [List.take_succ_cons, List.mem_cons]
        have hih := ih hs.2 hnd.2 i hiT m'
        constructor
        · rintro (hhi | hmem)
          · exact absurd hhi.symm hneq
          · exact Nat.succ_lt_succ (hih.mp hmem)
        · intro hlt
          exact Or.inr (hih.mpr (Nat.lt_of_succ_lt_succ hlt))

theorem mem_top3_iff (rows : List (List String)) (n i : Nat) (hi : i < n) :
    i ∈ top3 rows n ↔ rankCount rows n i < 3 := by
  unfold top3 rankCount
  have hperm : ((List.range n).insertionSort (rankRel rows)).Perm (List.range n) :=
    List.perm_insertionSort _ _
  have hs := List.sorted_insertionSort (rankRel rows) (List.range n)
  have hnd : ((List.range n).insertionSort (rankRel rows)).Nodup :=
    hperm.nodup_iff.mpr (List.nodup_range n)
  have hiL : i ∈ (List.range n).insertionSort (rankRel rows) :=
    hperm.mem_iff.mpr (List.mem_range.mpr hi)
  rw [← hperm.countP_eq]
  exact sorted_take_iff rows _ hs hnd i hiL 3

theorem top3_lt (rows : List (List String)) (n : Nat) :
    ∀ p ∈ top3 rows n, p < n := by
  intro p hp
  have hperm : ((List.range n).insertionSort (rankRel rows)).Perm (List.range n) :=
    List.perm_insertionSort _ _
  exact List.mem_range.mp (hperm.mem_iff.mp (List.mem_of_mem_take hp))

theorem getD_map_range {β : Type} (f : Nat → β) {n i : Nat} (h : i < n) (d : β) :
    ((List.range n).map f).getD i d = f i := by
  rw [List.getD_eq_getElem?_getD, List.getElem?_map, List.getElem?_range h]
  rfl

theorem pipelineLabels_getD (k : Nat) {n p : Nat} (h : p < n) :
    (pipelineLabels k n).getD p (Sum.inr "")
      = if p < k then Sum.inl p else Sum.inr ("ph_" ++ toString p) := by
  unfold pipelineLabels
  exact getD_map_range _ h _

theorem pipelineLabels_any_iff (k n i : Nat) (t : List Nat)
    (ht : ∀ p ∈ t, p < n) :
    ((t.any (fun p => (pipelineLabels k n).getD p (Sum.inr "") = Sum.inl i)) = true)
      ↔ (i ∈ t ∧ i < k) := by
  rw [List.any_eq_true]
  constructor
  · rintro ⟨p, hp, hdec⟩
    rw [decide_eq_true_eq, pipelineLabels_getD k (ht p hp)] at hdec
    by_cases hpk : p < k
    · rw [if_pos hpk] at hdec
      have hpi : p = i := by
        injection hdec
      subst hpi
      exact ⟨hp, hpk⟩
    · rw [if_neg hpk] at hdec
      cases hdec
  · rintro ⟨hit, hik⟩
    refine ⟨i, hit, ?_⟩
    rw [decide_eq_true_eq, pipelineLabels_getD k (ht i hit), if_pos hik]

/-! ## C7: pagination -/

theorem keptRows_length_le (ncols : Nat) (rows : List (List String))
    (hRect : ∀ r ∈ rows, r.length = ncols) :
    ∀ p ∈ keptRows ncols rows, p.2.length ≤ DATA_COLS_TO_KEEP := by
  intro p hp
  obtain ⟨p1, p2⟩ := p
  have hpe : (p1, p2) ∈ (truncateCols ncols rows).enum :=
    List.mem_of_mem_filter hp
  have hme := List.mem_enum hpe
  have hmem : p2 ∈ truncateCols ncols rows := by
    rw [hme.2]
    exact List.getElem_mem hme.1
  unfold truncateCols at hmem
  by_cases hc : DATA_COLS_TO_KEEP < ncols
  · rw [if_pos hc] at hmem
    rcases List.mem_map.mp hmem with ⟨r, _, rfl⟩
    show (List.take DATA_COLS_TO_KEEP r).length ≤ DATA_COLS_TO_KEEP
    rw [List.length_take]
    exact min_le_left _ _
  · rw [if_neg hc] at hmem
    show p2.length ≤ DATA_COLS_TO_KEEP
    rw [hRect _ hmem]
    omega

/-- C7: for a rectangular sheet whose blank-row filter leaves at least one
row, pagination produces exactly `ceil(R / ROWS_PER_PAGE)` pages; every page
holds exactly `ROWS_PER_PAGE` rows and every row exactly
`DATA_COLS_TO_KEEP` cells; and the real rows across the pages, in order,
are exactly the surviving rows: each carries its 1-based original position
(placeholders carry the non-numeric marker, modelled `none`) and its masked
padded cell values. -/
theorem C7_pagination (ncols : Nat) (rows : List (List String))
    (hRect : ∀ r ∈ rows, r.length = ncols)
    (hne : keptRows ncols rows ≠ []) :
    (generate_html_for_sheet ncols rows).length
      = ((keptRows ncols rows).length + (ROWS_PER_PAGE - 1)) / ROWS_PER_PAGE
    ∧ (∀ pg ∈ generate_html_for_sheet ncols rows,
        pg.page_data.length = ROWS_PER_PAGE)
    ∧ (∀ pg ∈ generate_html_for_sheet ncols rows, ∀ r ∈ pg.page_data,
        r.cells.length = DATA_COLS_TO_KEEP)
    ∧ ((generate_html_for_sheet ncols rows).map
          (fun pg => (pg.page_data.filter (fun r => r.excel_row_num.isSome)).map
            (fun r => (r.excel_row_num, r.cells.map (fun c => c.value))))).flatten
        = (keptRows ncols rows).map
            (fun p => (some (p.1 + 1), maskedRowValues p.2)) := by
  have h10 : 0 < ROWS_PER_PAGE := by decide
  have hkl := keptRows_length_le ncols rows hRect
  refine ⟨?_, ?_, ?_, ?_⟩
  · unfold generate_html_for_sheet
    rw [List.length_map]
    exact chunksAux_length ROWS_PER_PAGE h10 _ _ (le_refl _)
  · intro pg hpg
    unfold generate_html_for_sheet at hpg
    rcases List.mem_map.mp hpg with ⟨c, hc, rfl⟩
    have hcm := chunksAux_mem ROWS_PER_PAGE h10 _ _ _ (le_refl _) hc
    dsimp only [mkPage]
    rw [List.length_append, List.length_map, List.length_replicate]
    have := hcm.1
    omega
  · intro pg hpg r hr
    unfold generate_html_for_sheet at hpg
    rcases List.mem_map.mp hpg with ⟨c, hc, rfl⟩
    have hcm := chunksAux_mem ROWS_PER_PAGE h10 _ _ _ (le_refl _) hc
    dsimp only [mkPage] at hr
    rcases List.mem_append.mp hr with h1 | h2
    · rcases List.mem_map.mp h1 with ⟨p, hpc, rfl⟩
      show (mkCells _ p.2).length = DATA_COLS_TO_KEEP
      rw [mkCells_length]
      have : p.2.length ≤ DATA_COLS_TO_KEEP := hkl p (hcm.2 p hpc)
      omega
    · rw [(List.mem_replicate.mp h2).2]
      exact List.length_replicate _ _
  · unfold generate_html_for_sheet
    rw [List.map_map]
    have hpt : ∀ c ∈ chunksOf ROWS_PER_PAGE (keptRows ncols rows),
        ((fun pg => (pg.page_data.filter (fun r => r.excel_row_num.isSome)).map
            (fun r => (r.excel_row_num, r.cells.map (fun c => c.value))))
          ∘ (mkPage (min ncols DATA_COLS_TO_KEEP))) c
        = c.map (fun p => (some (p.1 + 1), maskedRowValues p.2)) := by
      intro c _
      show (((mkPage (min ncols DATA_COLS_TO_KEEP) c).page_data.filter
              (fun r => r.excel_row_num.isSome)).map
            (fun r => (r.excel_row_num, r.cells.map (fun c => c.value))))
          = c.map (fun p => (some (p.1 + 1), maskedRowValues p.2))
      dsimp only [mkPage]
      have hreal : ((c.map (fun p =>
            PageRow.mk (some (p.1 + 1))
              (mkCells (pageWidths (min ncols DATA_COLS_TO_KEEP) c) p.2))).filter
          (fun r => r.excel_row_num.isSome))
          = c.map (fun p =>
              PageRow.mk (some (p.1 + 1))
                (mkCells (pageWidths (min ncols DATA_COLS_TO_KEEP) c) p.2)) := by
        rw [List.filter_eq_self]
        intro a ha
        rcases List.mem_map.mp ha with ⟨p, _, rfl⟩
        rfl
      have hblank : ((List.replicate (ROWS_PER_PAGE - c.length) blankRow).filter
          (fun r => r.excel_row_num.isSome)) = [] := by
        rw [List.filter_eq_nil_iff]
        intro a ha
        rw [(List.mem_replicate.mp ha).2]
        simp [blankRow]
      rw [List.filter_append, hreal, hblank, List.append_nil, List.map_map]
      refine List.map_congr_left ?_
      intro p _
      show (some (p.1 + 1),
          (mkCells (pageWidths (min ncols DATA_COLS_TO_KEEP) c) p.2).map
            (fun c => c.value))
        = (some (p.1 + 1), maskedRowValues p.2)
      rw [mkCells_map_value]
    rw [List.map_congr_left hpt, ← List.map_flatten]
    unfold chunksOf
    rw [chunksAux_flatten ROWS_PER_PAGE h10 _ _ (le_refl _)]

/-- C7 witness: the theorem applied to a one-column sheet with two
surviving rows. -/
theorem C7_pagination_witness :
    (generate_html_for_sheet 1 [["a"], ["nan"], ["bb"]]).length
      = ((keptRows 1 [["a"], ["nan"], ["bb"]]).length + (ROWS_PER_PAGE - 1))
          / ROWS_PER_PAGE
    ∧ (∀ pg ∈ generate_html_for_sheet 1 [["a"], ["nan"], ["bb"]],
        pg.page_data.length = ROWS_PER_PAGE)
    ∧ (∀ pg ∈ generate_html_for_sheet 1 [["a"], ["nan"], ["bb"]],
        ∀ r ∈ pg.page_data, r.cells.length = DATA_COLS_TO_KEEP)
    ∧ ((generate_html_for_sheet 1 [["a"], ["nan"], ["bb"]]).map
          (fun pg => (pg.page_data.filter (fun r => r.excel_row_num.isSome)).map
            (fun r => (r.excel_row_num, r.cells.map (fun c => c.value))))).flatten
        = (keptRows 1 [["a"], ["nan"], ["bb"]]).map
            (fun p => (some (p.1 + 1), maskedRowValues p.2)) :=
  C7_pagination 1 [["a"], ["nan"], ["bb"]] (by decide) (by decide)

/-! ## C8: empty content -/

/-- C8 counterexample: a file whose only sheet strips to blank/`nan`
everywhere yields zero pages, but the pipeline run then DOES report
failure: `process_excel_file` returns
`success: False, error: "No valid data found in Excel file"`. -/
theorem C8_counterexample :
    process_excel_file_step1 [(1, [["nan"], [" "]])]
      = Except.error "No valid data found in Excel file" := by rfl

/-- C8: a sheet whose every (truncated) row strips to blank or `nan` indeed
produces zero pages; but the file-level run reports the no-valid-data
failure exactly when every sheet produced zero pages — an all-blank file is
an error, not a silent success. -/
theorem C8_empty_content (ncols : Nat) (rows : List (List String))
    (sheets : List (Nat × List (List String))) :
    ((∀ r ∈ truncateCols ncols rows, rowKept r = false) →
      generate_html_for_sheet ncols rows = [])
    ∧ (process_excel_file_step1 sheets
          = Except.error "No valid data found in Excel file"
        ↔ ∀ sh ∈ sheets, generate_html_for_sheet sh.1 sh.2 = []) := by
  constructor
  · intro hall
    have hkept : keptRows ncols rows = [] := by
      unfold keptRows
      rw [List.filter_eq_nil_iff]
      intro p hp
      obtain ⟨p1, p2⟩ := p
      have hme := List.mem_enum hp
      have hmem : p2 ∈ truncateCols ncols rows := by
        rw [hme.2]
        exact List.getElem_mem hme.1
      simp only [hall p2 hmem]
      exact Bool.false_ne_true
    unfold generate_html_for_sheet
    rw [hkept]
    rfl
  · unfold process_excel_file_step1
    by_cases hA : ((sheets.map
        (fun sh => generate_html_for_sheet sh.1 sh.2)).flatten).isEmpty
    · rw [if_pos hA]
      constructor
      · intro _ sh hsh
        have hnil := List.flatten_eq_nil_iff.mp (List.isEmpty_iff.mp hA)
        exact hnil _ (List.mem_map.mpr ⟨sh, hsh, rfl⟩)
      · intro _
        rfl
    · rw [if_neg hA]
      constructor
      · intro h
        cases h
      · intro hall
        exfalso
        apply hA
        rw [List.isEmpty_iff, List.flatten_eq_nil_iff]
        intro l hl
        rcases List.mem_map.mp hl with ⟨sh, hsh, rfl⟩
        exact hall sh hsh

/-- C8 witness: the theorem applied to a concrete all-blank sheet and the
one-sheet file holding it. -/
theorem C8_empty_content_witness :
    generate_html_for_sheet 1 [["NaN"], ["  "]] = []
    ∧ process_excel_file_step1 [(1, [["NaN"], ["  "]])]
        = Except.error "No valid data found in Excel file" := by
  have h := C8_empty_content 1 [["NaN"], ["  "]] [(1, [["NaN"], ["  "]])]
  refine ⟨h.1 (by decide), h.2.mpr ?_⟩
  intro sh hsh
  have hse : sh = (1, [["NaN"], ["  "]]) := List.mem_singleton.mp hsh
  subst hse
  exact (C8_empty_content 1 [["NaN"], ["  "]] []).1 (by decide)


/-! ## C9: column widths

`Nat.gcd` (inside `Rat` normalization) is not kernel-reducible, so concrete
rank facts go through the column totals: all columns of a chunk share the
denominator `rows.length`, so comparing means is comparing totals. -/

/-- The total trimmed-text length of column `j` (the mean's numerator). -/
def colTotal (rows : List (List String)) (j : Nat) : Nat :=
  (rows.map (fun r => (trimL (r.getD j "").data).length)).sum

theorem colMean_eq_total (rows : List (List String)) (j : Nat) :
    colMean rows j = (colTotal rows j : ℚ) / (rows.length : ℚ) := by
  unfold colMean colTotal
  rw [Nat.cast_list_sum, List.map_map]
  rfl

theorem colMean_lt_iff (rows : List (List String)) (i j : Nat) :
    colMean rows i < colMean rows j ↔ colTotal rows i < colTotal rows j := by
  rw [colMean_eq_total, colMean_eq_total]
  rcases Nat.eq_zero_or_pos rows.length with h0 | hpos
  · rcases List.length_eq_zero.mp h0 with rfl
    unfold colTotal
    simp
  · have hc : (0 : ℚ) < (rows.length : ℚ) := by exact_mod_cast hpos
    rw [div_lt_div_iff_of_pos_right hc, Nat.cast_lt]

theorem colMean_eq_iff (rows : List (List String)) (i j : Nat) :
    colMean rows i = colMean rows j ↔ colTotal rows i = colTotal rows j := by
  rw [colMean_eq_total, colMean_eq_total]
  rcases Nat.eq_zero_or_pos rows.length with h0 | hpos
  · rcases List.length_eq_zero.mp h0 with rfl
    unfold colTotal
    simp
  · have hc : ((rows.length : ℚ)) ≠ 0 := by
      exact_mod_cast Nat.pos_iff_ne_zero.mp hpos
    constructor
    · intro h
      have h2 : (colTotal rows i : ℚ) / (rows.length : ℚ) * (rows.length : ℚ)
          = (colTotal rows j : ℚ) / (rows.length : ℚ) * (rows.length : ℚ) := by
        rw [h]
      rw [div_mul_cancel₀ _ hc, div_mul_cancel₀ _ hc] at h2
      exact_mod_cast h2
    · intro h
      rw [h]

/-- `strictBetter` restated on column totals: decidable by `Nat`
arithmetic, so the kernel can evaluate it on concrete chunks. -/
def strictBetterT (rows : List (List String)) (j i : Nat) : Prop :=
  colTotal rows i < colTotal rows j
    ∨ (colTotal rows j = colTotal rows i ∧ j < i)

instance (rows : List (List String)) : DecidableRel (strictBetterT rows) := fun j i =>
  inferInstanceAs (Decidable (colTotal rows i < colTotal rows j
    ∨ (colTotal rows j = colTotal rows i ∧ j < i)))

theorem strictBetter_iff_total (rows : List (List String)) (j i : Nat) :
    strictBetter rows j i ↔ strictBetterT rows j i := by
  unfold strictBetter strictBetterT
  rw [colMean_lt_iff, colMean_eq_iff]

theorem rankCount_eq_total (rows : List (List String)) (n i : Nat) :
    rankCount rows n i
      = (List.range n).countP (fun j => decide (strictBetterT rows j i)) := by
  unfold rankCount
  refine List.countP_congr ?_
  intro j _
  rw [decide_eq_true_eq, decide_eq_true_eq]
  exact strictBetter_iff_total rows j i

/-- The width of data column `i` of a pipeline-labelled chunk: wide exactly
when `i` is among the three best-ranked positions and its label is the
integer `i` itself (placeholder labels never equal the loop integer). -/
theorem widths_getD_char (k : Nat) (rows : List (List String))
    (hrows : rows ≠ []) (i : Nat) (hi : i < DATA_COLS_TO_KEEP) :
    (get_column_widths
        (DFrame.mk (pipelineLabels k DATA_COLS_TO_KEEP) rows)).getD (i+1) 0
      = if i ∈ top3 rows DATA_COLS_TO_KEEP ∧ i < k then TOP_3_COL_WIDTH
        else OTHER_COL_WIDTH := by
  have hlen : (pipelineLabels k DATA_COLS_TO_KEEP).length = DATA_COLS_TO_KEEP := by
    unfold pipelineLabels
    rw [List.length_map, List.length_range]
  have hemp : ((DFrame.mk (pipelineLabels k DATA_COLS_TO_KEEP) rows).rows.isEmpty) = false := by
    cases rows with
    | nil => exact absurd rfl hrows
    | cons a t => rfl
  unfold get_column_widths
  rw [if_neg (by rw [hemp]; exact Bool.false_ne_true)]
  dsimp only
  rw [hlen, List.getD_cons_succ, getD_map_range _ hi]
  by_cases hc : i ∈ top3 rows DATA_COLS_TO_KEEP ∧ i < k
  · rw [if_pos ((pipelineLabels_any_iff k DATA_COLS_TO_KEEP i _
      (top3_lt rows DATA_COLS_TO_KEEP)).mpr hc), if_pos hc]
  · rw [if_neg (fun hb => hc ((pipelineLabels_any_iff k DATA_COLS_TO_KEEP i _
      (top3_lt rows DATA_COLS_TO_KEEP)).mp hb)), if_neg hc]

/-- C9 counterexample: in the chunk `[["xy", "z"]]` with 2 real columns
(padded to `DATA_COLS_TO_KEEP`), position 2 is among the top-3 ranked
columns, yet it receives the narrow width: the wide width does not go to
"exactly the top 3 columns" whenever placeholder columns rank in the
top 3. -/
theorem C9_counterexample :
    2 ∈ top3 [["xy", "z"]] DATA_COLS_TO_KEEP
    ∧ (get_column_widths
        (DFrame.mk (pipelineLabels 2 DATA_COLS_TO_KEEP) [["xy", "z"]])).getD 3 0
        = OTHER_COL_WIDTH := by
  constructor
  · rw [mem_top3_iff _ _ 2 (by decide), rankCount_eq_total]
    decide
  · have h := widths_getD_char 2 [["xy", "z"]] (by decide) 2 (by decide)
    rw [if_neg (fun hcon => absurd hcon.2 (by omega))] at h
    exact h

/-- C9: for every non-empty pipeline-labelled chunk the width list is the
index width followed by one width per column; a data column is wide exactly
when it is a real (non-placeholder) column ranked in the top 3 by mean
trimmed length (descending, ties by original position); every other column
is narrow; and ties in mean resolve by original column order — an
equal-mean earlier real column is wide whenever the later one is. -/
theorem C9_column_widths (k : Nat) (rows : List (List String))
    (hrows : rows ≠ []) (hk : k ≤ DATA_COLS_TO_KEEP) :
    (get_column_widths
        (DFrame.mk (pipelineLabels k DATA_COLS_TO_KEEP) rows)).length
      = DATA_COLS_TO_KEEP + 1
    ∧ (get_column_widths
        (DFrame.mk (pipelineLabels k DATA_COLS_TO_KEEP) rows)).getD 0 0
      = INDEX_COL_WIDTH
    ∧ (∀ i, i < DATA_COLS_TO_KEEP →
        ((get_column_widths
            (DFrame.mk (pipelineLabels k DATA_COLS_TO_KEEP) rows)).getD (i+1) 0
            = TOP_3_COL_WIDTH
          ↔ (i < k ∧ rankCount rows DATA_COLS_TO_KEEP i < 3)))
    ∧ (∀ i, i < DATA_COLS_TO_KEEP →
        ((get_column_widths
            (DFrame.mk (pipelineLabels k DATA_COLS_TO_KEEP) rows)).getD (i+1) 0
            = TOP_3_COL_WIDTH
          ∨ (get_column_widths
              (DFrame.mk (pipelineLabels k DATA_COLS_TO_KEEP) rows)).getD (i+1) 0
            = OTHER_COL_WIDTH))
    ∧ (∀ i j, i < j → j < k → colMean rows i = colMean rows j →
        (get_column_widths
            (DFrame.mk (pipelineLabels k DATA_COLS_TO_KEEP) rows)).getD (j+1) 0
          = TOP_3_COL_WIDTH →
        (get_column_widths
            (DFrame.mk (pipelineLabels k DATA_COLS_TO_KEEP) rows)).getD (i+1) 0
          = TOP_3_COL_WIDTH) := by
  have hlen : (pipelineLabels k DATA_COLS_TO_KEEP).length = DATA_COLS_TO_KEEP := by
    unfold pipelineLabels
    rw [List.length_map, List.length_range]
  have hemp : ((DFrame.mk (pipelineLabels k DATA_COLS_TO_KEEP) rows).rows.isEmpty)
      = false := by
    cases rows with
    | nil => exact absurd rfl hrows
    | cons a t => rfl
  refine ⟨?_, ?_, ?_, ?_, ?_⟩
  · unfold get_column_widths
    rw [if_neg (by rw [hemp]; exact Bool.false_ne_true)]
    dsimp only
    rw [List.length_cons, List.length_map, List.length_range, hlen]
  · unfold get_column_widths
    rw [if_neg (by rw [hemp]; exact Bool.false_ne_true)]
    rfl
  · intro i hi
    rw [widths_getD_char k rows hrows i hi]
    by_cases hc : i ∈ top3 rows DATA_COLS_TO_KEEP ∧ i < k
    · rw [if_pos hc]
      exact ⟨fun _ => ⟨hc.2, (mem_top3_iff rows DATA_COLS_TO_KEEP i hi).mp hc.1⟩,
        fun _ => rfl⟩
    · rw [if_neg hc]
      refine ⟨fun h => absurd h (by decide), fun hrc => ?_⟩
      exact absurd ⟨(mem_top3_iff rows DATA_COLS_TO_KEEP i hi).mpr hrc.2, hrc.1⟩ hc
  · intro i hi
    rw [widths_getD_char k rows hrows i hi]
    by_cases hc : i ∈ top3 rows DATA_COLS_TO_KEEP ∧ i < k
    · rw [if_pos hc]
      exact Or.inl rfl
    · rw [if_neg hc]
      exact Or.inr rfl
  · intro i j hij hjk hmean h200
    have hi15 : i < DATA_COLS_TO_KEEP := lt_of_lt_of_le (lt_trans hij hjk) hk
    have hj15 : j < DATA_COLS_TO_KEEP := lt_of_lt_of_le hjk hk
    rw [widths_getD_char k rows hrows j hj15] at h200
    by_cases hcj : j ∈ top3 rows DATA_COLS_TO_KEEP ∧ j < k
    · have hrcj : rankCount rows DATA_COLS_TO_KEEP j < 3 :=
        (mem_top3_iff rows DATA_COLS_TO_KEEP j hj15).mp hcj.1
      have hmono : rankCount rows DATA_COLS_TO_KEEP i
          ≤ rankCount rows DATA_COLS_TO_KEEP j := by
        unfold rankCount
        refine List.countP_mono_left ?_
        intro p _ hp
        rw [decide_eq_true_eq] at hp ⊢
        unfold strictBetter at hp ⊢
        rcases hp with hlt | ⟨heq, hlt⟩
        · exact Or.inl (hmean ▸ hlt)
        · exact Or.inr ⟨heq.trans hmean, lt_trans hlt hij⟩
      have hrci : rankCount rows DATA_COLS_TO_KEEP i < 3 :=
        lt_of_le_of_lt hmono hrcj
      rw [widths_getD_char k rows hrows i hi15,
        if_pos ⟨(mem_top3_iff rows DATA_COLS_TO_KEEP i hi15).mpr hrci,
          lt_trans hij hjk⟩]
    · rw [if_neg hcj] at h200
      exact absurd h200 (by decide)

/-- C9 witness: the theorem applied to a concrete one-column one-row
chunk. -/
theorem C9_column_widths_witness :
    (get_column_widths
        (DFrame.mk (pipelineLabels 1 DATA_COLS_TO_KEEP) [["ab"]])).length
      = DATA_COLS_TO_KEEP + 1
    ∧ (get_column_widths
        (DFrame.mk (pipelineLabels 1 DATA_COLS_TO_KEEP) [["ab"]])).getD 0 0
      = INDEX_COL_WIDTH
    ∧ (∀ i, i < DATA_COLS_TO_KEEP →
        ((get_column_widths
            (DFrame.mk (pipelineLabels 1 DATA_COLS_TO_KEEP) [["ab"]])).getD (i+1) 0
            = TOP_3_COL_WIDTH
          ↔ (i < 1 ∧ rankCount [["ab"]] DATA_COLS_TO_KEEP i < 3)))
    ∧ (∀ i, i < DATA_COLS_TO_KEEP →
        ((get_column_widths
            (DFrame.mk (pipelineLabels 1 DATA_COLS_TO_KEEP) [["ab"]])).getD (i+1) 0
            = TOP_3_COL_WIDTH
          ∨ (get_column_widths
              (DFrame.mk (pipelineLabels 1 DATA_COLS_TO_KEEP) [["ab"]])).getD (i+1) 0
            = OTHER_COL_WIDTH))
    ∧ (∀ i j, i < j → j < 1 → colMean [["ab"]] i = colMean [["ab"]] j →
        (get_column_widths
            (DFrame.mk (pipelineLabels 1 DATA_COLS_TO_KEEP) [["ab"]])).getD (j+1) 0
          = TOP_3_COL_WIDTH →
        (get_column_widths
            (DFrame.mk (pipelineLabels 1 DATA_COLS_TO_KEEP) [["ab"]])).getD (i+1) 0
          = TOP_3_COL_WIDTH) :=
  C9_column_widths 1 [["ab"]] (by decide) (by decide)

end DataLd
